import Mathlib

/-!
Verification of the versioned schema migration engine in `ibid/models.py`.

The engine is embedded shallowly:

* the database is a `DB`: the set of physically existing tables plus the
  rows of the `schema` version-store table (an association list from table
  name to committed version);
* `VersionedSchema.upgrade_schema` (and the dependency recursion it performs
  over foreign keys, the table-creation branch, and the per-version upgrade
  loop with its one-transaction-per-step commit/rollback discipline) becomes
  the fueled function `upgrade_schema`; Python's unbounded recursion over a
  cyclic foreign-key graph corresponds to running out of fuel
  (`Err.recursionLimit`, the model of Python's `RecursionError`);
* each upgrade step `upgrade_N_to_N+1` is abstracted by two sets of version
  numbers: `hasStep` (the method exists: `eval` finds the attribute) and
  `failStep` (the method raises when invoked); a step that raises rolls its
  transaction back, so the database is left exactly as after the previous
  committed step;
* executed DDL is recorded in a log of events (`Ev.create`, `Ev.step`);
  rolled-back work is not logged, matching what is durably executed;
* `Schema.SchemaSchema.upgrade_schema` (the bootstrap path for the version
  store's own table) becomes `bootSchema`;
* `is_up_to_date`, `check_schema_versions` and `upgrade_schemas` are
  translated directly; a query against the version store when the `schema`
  table does not physically exist raises (`Err.storeUnavailable`), modelling
  the `OperationalError` that SQLAlchemy raises in that case (the code's
  `except NoResultFound` does not catch it);
* `rebuild_sqlite` is embedded over an explicit table of rows: a row is an
  association list from column name to cell value, and the
  `INSERT INTO ... SELECT ...` copy is the `copyRow` projection through
  `fullcolmap`.
-/

namespace Ibid

/-- First-match association-list lookup, the model of both the version-store
query `session.query(Schema).filter(Schema.table==name)` and row/column maps. -/
def alookup {α : Type} : List (String × α) → String → Option α
  | [], _ => none
  | p :: ps, n => if p.1 = n then some p.2 else alookup ps n

/-- The observable database state: which tables physically exist
(`has_table`), and the rows of the `schema` version store. -/
structure DB where
  tables : List String
  store : List (String × Nat)
deriving DecidableEq

/-- A durably executed DDL event: creation of a table, or the DDL of one
committed upgrade step (the step taking the table to version `v`). -/
inductive Ev where
  | create (t : String) (v : Nat)
  | step (t : String) (v : Nat)
deriving DecidableEq

/-- The table an event belongs to. -/
def evName : Ev → String
  | Ev.create t _ => t
  | Ev.step t _ => t

/-- Exceptions the engine can raise. There is no cycle-detection error:
`upgrade_schema` has no visited-set or depth check, so a cyclic foreign-key
graph only ever surfaces as Python's recursion limit (`recursionLimit`). -/
inductive Err where
  | recursionLimit
  | storeUnavailable
  | missingDep (d : String)
  | notVersioned (d : String)
  | createFailed (t : String)
  | insertFailed (t : String)
  | missingStep (t : String) (v : Nat)
  | stepError (t : String) (v : Nat)
  | outOfDate (ts : List String)
deriving DecidableEq

/-- Result of a run: final database, durably executed DDL, and the raised
exception if any. -/
structure Res where
  db : DB
  log : List Ev
  err : Option Err
deriving DecidableEq

/-- A table of the declarative model together with its `versioned_schema`
data: foreign-key dependencies, declared target version, which
`upgrade_N_to_N+1` methods exist (`hasStep` holds the target versions of
defined steps), which of them raise when run (`failStep`), whether the table
has a `versioned_schema` attribute at all, and whether the attribute is the
special `SchemaSchema` bootstrap class used by the `schema` table. -/
structure TableDef where
  name : String
  deps : List String
  version : Nat
  hasStep : List Nat
  failStep : List Nat
  versioned : Bool
  special : Bool
deriving DecidableEq

/-- Name of the version store's own metadata table. -/
def schemaName : String := "schema"

/-- `metadata.tables[name]`, restricted to the declared model. -/
def lookupEnv (env : List TableDef) (n : String) : Option TableDef :=
  env.find? (fun t => t.name == n)

/-- `schema.version = v; session.save_or_update(schema)`: update the existing
version-store row for `n`. -/
def setVersion (db : DB) (n : String) (v : Nat) : DB :=
  ⟨db.tables, db.store.map (fun p => if p.1 = n then (n, v) else p)⟩

/-- The per-version upgrade loop
`for version in range(schema.version + 1, self.version + 1)`, processing
`cnt` versions starting at `v`. Each iteration runs in its own transaction:
a missing `upgrade_%i_to_%i` attribute raises `missingStep`, a step that
raises rolls back (database unchanged since the previous commit) and aborts
with `stepError`; a successful step commits its DDL and the version-store
update together. -/
def runSteps (t : TableDef) : Nat → Nat → DB → List Ev → Res
  | _, 0, db, log => ⟨db, log, none⟩
  | v, cnt + 1, db, log =>
    if v ∈ t.hasStep then
      if v ∈ t.failStep then ⟨db, log, some (Err.stepError t.name v)⟩
      else runSteps t (v + 1) cnt (setVersion db t.name v) (log ++ [Ev.step t.name v])
    else ⟨db, log, some (Err.missingStep t.name v)⟩

/-- `Schema.SchemaSchema.upgrade_schema`: create the version-store table and
its own record if the table does not physically exist, no-op otherwise. An
insert clashing with a stale record violates the unique constraint and
raises. -/
def bootSchema (t : TableDef) (db : DB) : Res :=
  if t.name ∈ db.tables then ⟨db, [], none⟩
  else
    match alookup db.store t.name with
    | some _ => ⟨⟨t.name :: db.tables, db.store⟩, [Ev.create t.name t.version],
        some (Err.insertFailed t.name)⟩
    | none => ⟨⟨t.name :: db.tables, (t.name, t.version) :: db.store⟩,
        [Ev.create t.name t.version], none⟩

/-- The body of `VersionedSchema.upgrade_schema` after the dependency loop:
query the version store (raises if the store's table is missing), then either
create the table and record its declared version, or run the upgrade loop up
to the declared version, or do nothing when already at (or beyond) it. -/
def ownUpgrade (t : TableDef) (db : DB) (log : List Ev) : Res :=
  if schemaName ∈ db.tables then
    match alookup db.store t.name with
    | none =>
      if t.name ∈ db.tables then ⟨db, log, some (Err.createFailed t.name)⟩
      else ⟨⟨t.name :: db.tables, (t.name, t.version) :: db.store⟩,
        log ++ [Ev.create t.name t.version], none⟩
    | some sv =>
      if sv < t.version then runSteps t (sv + 1) (t.version - sv) db log
      else ⟨db, log, none⟩
  else ⟨db, log, some Err.storeUnavailable⟩

/-- The dependency loop `for fk in self.table.foreign_keys`: look each
dependency up in the shared metadata catalog and run its
`versioned_schema.upgrade_schema` (passed in as `rec`, the recursion one
level deeper); an exception aborts the remaining dependencies (and the
dependent table's own work). -/
def upgradeDepGo (env : List TableDef) (rec : TableDef → DB → Res) :
    List String → DB → Res
  | [], db => ⟨db, [], none⟩
  | d :: ds, db =>
    match lookupEnv env d with
    | none => ⟨db, [], some (Err.missingDep d)⟩
    | some td =>
      if td.versioned then
        let r := if td.special then bootSchema td db else rec td db
        if r.err.isSome then r
        else
          let r2 := upgradeDepGo env rec ds r.db
          ⟨r2.db, r.log ++ r2.log, r2.err⟩
      else ⟨db, [], some (Err.notVersioned d)⟩

/-- `VersionedSchema.upgrade_schema`: first upgrade every foreign-key
dependency (depth-first), then the table's own creation/upgrade body.
`fuel` bounds the recursion depth, as Python's interpreter stack does. -/
def upgrade_schema (env : List TableDef) : Nat → TableDef → DB → Res
  | 0, _, db => ⟨db, [], some Err.recursionLimit⟩
  | fuel + 1, t, db =>
    let rd := upgradeDepGo env (upgrade_schema env fuel) t.deps db
    if rd.err.isSome then rd
    else ownUpgrade t rd.db rd.log

/-- The dependency loop at a given recursion budget. -/
def upgradeDepList (env : List TableDef) (fuel : Nat) : List String → DB → Res :=
  upgradeDepGo env (upgrade_schema env fuel)

/-- Dynamic dispatch of `table.versioned_schema.upgrade_schema`: the special
`SchemaSchema` bootstrap for the version store's table, the generic
`VersionedSchema` method otherwise. -/
def dispatch (env : List TableDef) (fuel : Nat) (t : TableDef) (db : DB) : Res :=
  if t.special then bootSchema t db else upgrade_schema env fuel t db

/-- The loop of `upgrade_schemas` over `metadata.tables.itervalues()`:
tables without a `versioned_schema` attribute are skipped after a logged
error; an exception aborts the remainder. -/
def upgradeLoop (env : List TableDef) (fuel : Nat) : List TableDef → DB → Res
  | [], db => ⟨db, [], none⟩
  | t :: ts, db =>
    if t.versioned then
      let r := dispatch env fuel t db
      if r.err.isSome then r
      else
        let r2 := upgradeLoop env fuel ts r.db
        ⟨r2.db, r.log ++ r2.log, r2.err⟩
    else upgradeLoop env fuel ts db

/-- `upgrade_schemas`: bootstrap the version store's own table first, then
upgrade every table of the catalog. -/
def upgrade_schemas (env : List TableDef) (fuel : Nat) (db : DB) : Res :=
  match lookupEnv env schemaName with
  | none => ⟨db, [], some (Err.missingDep schemaName)⟩
  | some ts =>
    let r := dispatch env fuel ts db
    if r.err.isSome then r
    else
      let r2 := upgradeLoop env fuel env r.db
      ⟨r2.db, r.log ++ r2.log, r2.err⟩

/-- `VersionedSchema.is_up_to_date`: `False` when the table does not
physically exist; otherwise query the version store (which raises when the
store's own table is missing — only `NoResultFound` is caught) and compare
the recorded version with the declared one. -/
def is_up_to_date (db : DB) (t : TableDef) : Except Err Bool :=
  if t.name ∈ db.tables then
    if schemaName ∈ db.tables then
      match alookup db.store t.name with
      | some v => Except.ok (decide (v = t.version))
      | none => Except.ok false
    else Except.error Err.storeUnavailable
  else Except.ok false

/-- The collection loop of `check_schema_versions`: skip tables without a
`versioned_schema` attribute, collect the names of out-of-date tables,
propagate any exception raised by `is_up_to_date`. -/
def checkLoop (db : DB) : List TableDef → Except Err (List String)
  | [] => Except.ok []
  | t :: ts =>
    if t.versioned then
      match is_up_to_date db t with
      | Except.error e => Except.error e
      | Except.ok b =>
        match checkLoop db ts with
        | Except.error e => Except.error e
        | Except.ok rest => Except.ok (if b then rest else t.name :: rest)
    else checkLoop db ts

/-- `check_schema_versions`: return normally when every versioned table is up
to date, raise `outOfDate` with the lagging names otherwise. -/
def check_schema_versions (env : List TableDef) (db : DB) : Except Err Unit :=
  match checkLoop db env with
  | Except.error e => Except.error e
  | Except.ok [] => Except.ok ()
  | Except.ok us => Except.error (Err.outOfDate us)

/-! ## `rebuild_sqlite` -/

/-- A column of a table definition: a name and a rendered type. -/
structure Col where
  name : String
  ctype : String
deriving DecidableEq

/-- The `fullcolmap` computed by `rebuild_sqlite`: for each reflected column
in order, a pair (old name, name to read it back under); columns mapped to
`None` are omitted (dropped), unmentioned columns keep their own name. -/
def fullcolmap (cols : List Col) (cm : List (String × Option Col)) :
    List (String × String) :=
  cols.filterMap (fun c =>
    match alookup cm c.name with
    | none => some (c.name, c.name)
    | some none => none
    | some (some c') => some (c.name, c'.name))

/-- One entry of the column-layout edit:
`del table.c[old]; table.append_column(col)`. -/
def applyColEntry (acc : List Col) (p : String × Option Col) : List Col :=
  (acc.filter (fun c => c.name ≠ p.1)) ++
    (match p.2 with | none => [] | some c => [c])

/-- The column-layout edit applied for every entry of the map. -/
def applyColmap (cols : List Col) (cm : List (String × Option Col)) : List Col :=
  cm.foldl applyColEntry cols

/-- The effect of the copy statement
`INSERT INTO t (values of fullcolmap) SELECT keys of fullcolmap FROM t_old`
on one row: each retained old column's cell reappears under its new name. -/
def copyRow (fcm : List (String × String)) (r : List (String × String)) :
    List (String × String) :=
  fcm.map (fun p => (p.2, (alookup r p.1).getD ""))

/-- `VersionedSchema.rebuild_sqlite` on a table whose reflected columns are
`cols` and whose rows are `rows`: the rebuilt table's columns and rows. -/
def rebuild_sqlite (cols : List Col) (cm : List (String × Option Col))
    (rows : List (List (String × String))) :
    List Col × List (List (String × String)) :=
  (applyColmap cols cm, rows.map (copyRow (fullcolmap cols cm)))

/-- `db1` evolves into `db2`: physical tables are never dropped and stored
versions never decrease. -/
def DBLE (db1 db2 : DB) : Prop :=
  (∀ n, n ∈ db1.tables → n ∈ db2.tables) ∧
  (∀ n v, alookup db1.store n = some v → ∃ v', alookup db2.store n = some v' ∧ v ≤ v')

/-- Every version the store records for a catalogued table is at most that
table's declared target version. Any store written by the engine itself
satisfies this. -/
def storeBounded (env : List TableDef) (s : List (String × Nat)) : Bool :=
  s.all (fun p => match lookupEnv env p.1 with
    | some td => decide (p.2 ≤ td.version)
    | none => true)

mutual

/-- A table is settled in `db` (at recursion budget `fuel`) when dispatching
its `upgrade_schema` leaves the database untouched and runs no DDL: its
dependencies are settled, the version store is queryable, and its record is
at (or beyond) the declared version — for the special bootstrap class, merely
that its table exists. -/
def settledT (env : List TableDef) : Nat → TableDef → DB → Bool
  | fuel, t, db =>
    if t.special then decide (t.name ∈ db.tables)
    else
      match fuel with
      | 0 => false
      | f + 1 =>
        settledDeps env f t.deps db && decide (schemaName ∈ db.tables) &&
          (match alookup db.store t.name with
           | some v => decide (t.version ≤ v)
           | none => false)
termination_by fuel _t _db => (fuel, 0)

/-- All dependencies in the list are catalogued, versioned and settled. -/
def settledDeps (env : List TableDef) : Nat → List String → DB → Bool
  | _, [], _ => true
  | fuel, d :: ds, db =>
    match lookupEnv env d with
    | none => false
    | some td => td.versioned && settledT env fuel td db && settledDeps env fuel ds db
termination_by fuel ds _db => (fuel, ds.length + 1)

end

/-! ## Concrete model fixtures -/

/-- The version store's own table as declared in the source: name `schema`,
version 1, `SchemaSchema` bootstrap class. -/
def schemaTable : TableDef := ⟨"schema", [], 1, [], [], true, true⟩

/-- A table at target version 3 whose step 2→3 raises when run. -/
def fxStepT : TableDef := ⟨"log", [], 3, [2, 3], [3], true, false⟩

/-- The same table after the failing step has been corrected. -/
def fxStepT' : TableDef := ⟨"log", [], 3, [2, 3], [], true, false⟩

def fxStepEnv : List TableDef := [schemaTable, fxStepT]

def fxStepDb : DB := ⟨["schema", "log"], [("schema", 1), ("log", 1)]⟩

/-- A table at target version 4 whose `upgrade_2_to_3` method does not
exist. -/
def fxGapT : TableDef := ⟨"log", [], 4, [2, 4], [], true, false⟩

def fxGapEnv : List TableDef := [schemaTable, fxGapT]

/-- Two tables whose foreign keys form the cycle A→B→A. -/
def fxCycA : TableDef := ⟨"identities", ["accounts"], 1, [], [], true, false⟩

def fxCycB : TableDef := ⟨"accounts", ["identities"], 1, [], [], true, false⟩

def fxCycEnv : List TableDef := [schemaTable, fxCycA, fxCycB]

def fxCycDb : DB := ⟨["schema"], [("schema", 1)]⟩

/-- A fresh dependency pair: `identities` has a foreign key to `accounts`. -/
def fxDepB : TableDef := ⟨"accounts", [], 2, [2], [], true, false⟩

def fxDepA : TableDef := ⟨"identities", ["accounts"], 1, [], [], true, false⟩

def fxDepEnv : List TableDef := [schemaTable, fxDepA, fxDepB]

def fxDepDb : DB := ⟨["schema"], [("schema", 1)]⟩

/-- A table one upgrade step behind its declared version. -/
def fxUpT : TableDef := ⟨"credentials", [], 2, [2], [], true, false⟩

def fxUpEnv : List TableDef := [schemaTable, fxUpT]

def fxUpDb : DB := ⟨["schema", "credentials"], [("schema", 1), ("credentials", 1)]⟩

/-- A plain versioned table at version 1. -/
def fxIdent : TableDef := ⟨"identities", [], 1, [], [], true, false⟩

def fxIdEnv : List TableDef := [schemaTable, fxIdent]

/-- A table in the catalog without a `versioned_schema` attribute. -/
def fxGhost : TableDef := ⟨"ghost", [], 0, [], [], false, false⟩

/-- Columns, column map and rows for a SQLite rebuild renaming `x` to `y`. -/
def fxCols : List Col := [⟨"id", "INTEGER"⟩, ⟨"x", "VARCHAR"⟩]

def fxCm : List (String × Option Col) := [("x", some ⟨"y", "VARCHAR"⟩)]

def fxRows : List (List (String × String)) :=
  [[("id", "1"), ("x", "a")], [("id", "2"), ("x", "b")]]

/-! ## Lookup lemmas -/

theorem alookup_eq_none {α : Type} {l : List (String × α)} {n : String} :
    alookup l n = none ↔ ∀ p ∈ l, p.1 ≠ n := by
  induction l with
  | nil => simp [alookup]
  | cons p ps ih =>
    by_cases h : p.1 = n <;> simp [alookup, h, ih]

theorem alookup_mem {α : Type} {l : List (String × α)} {n : String} {v : α}
    (h : alookup l n = some v) : (n, v) ∈ l := by
  induction l with
  | nil => simp [alookup] at h
  | cons p ps ih =>
    obtain ⟨a, b⟩ := p
    by_cases hp : a = n
    · subst hp
      simp only [alookup, if_pos] at h
      simp only [Option.some.injEq] at h
      subst h
      exact List.mem_cons_self _ _
    · rw [show alookup ((a, b) :: ps) n = alookup ps n by
        simp only [alookup]; rw [if_neg hp]] at h
      exact List.mem_cons_of_mem _ (ih h)

theorem alookup_split {α : Type} {l : List (String × α)} {n : String} {v : α}
    (h : alookup l n = some v) :
    ∃ l1 l2, l = l1 ++ (n, v) :: l2 ∧ ∀ p ∈ l1, p.1 ≠ n := by
  induction l with
  | nil => simp [alookup] at h
  | cons p ps ih =>
    obtain ⟨a, b⟩ := p
    by_cases hp : a = n
    · subst hp
      simp only [alookup, if_pos] at h
      simp only [Option.some.injEq] at h
      subst h
      exact ⟨[], ps, by simp, by simp⟩
    · rw [show alookup ((a, b) :: ps) n = alookup ps n by
        simp only [alookup]; rw [if_neg hp]] at h
      obtain ⟨l1, l2, heq, hl1⟩ := ih h
      refine ⟨(a, b) :: l1, l2, by simp [heq], ?_⟩
      intro q hq
      rcases List.mem_cons.mp hq with rfl | hq
      · exact hp
      · exact hl1 q hq

theorem setVersion_tables (db : DB) (n : String) (v : Nat) :
    (setVersion db n v).tables = db.tables := rfl

theorem alookup_setVersion_self (db : DB) (n : String) (v : Nat) :
    alookup (setVersion db n v).store n = (alookup db.store n).map (fun _ => v) := by
  show alookup (db.store.map _) n = _
  induction db.store with
  | nil => simp [alookup]
  | cons p ps ih =>
    by_cases h : p.1 = n <;> simp [alookup, h, ih]

theorem alookup_setVersion_ne (db : DB) (n m : String) (v : Nat) (h : m ≠ n) :
    alookup (setVersion db n v).store m = alookup db.store m := by
  show alookup (db.store.map _) m = _
  induction db.store with
  | nil => simp [alookup]
  | cons p ps ih =>
    simp only [List.map_cons, alookup]
    by_cases hp : p.1 = n
    · rw [if_pos hp, if_neg (show ¬(n, v).1 = m from fun hc => h (Eq.symm hc)), ih,
        if_neg (show ¬p.1 = m from by rw [hp]; exact fun hc => h (Eq.symm hc))]
    · rw [if_neg hp, ih]

/-! ## The per-version upgrade loop -/

theorem runSteps_zero (t : TableDef) (v : Nat) (db : DB) (log : List Ev) :
    runSteps t v 0 db log = ⟨db, log, none⟩ := rfl

theorem runSteps_succ_step (t : TableDef) (v cnt : Nat) (db : DB) (log : List Ev)
    (h1 : v ∈ t.hasStep) (h2 : v ∉ t.failStep) :
    runSteps t v (cnt + 1) db log
      = runSteps t (v + 1) cnt (setVersion db t.name v) (log ++ [Ev.step t.name v]) := by
  simp [runSteps, h1, h2]

theorem runSteps_succ_fail (t : TableDef) (v cnt : Nat) (db : DB) (log : List Ev)
    (h1 : v ∈ t.hasStep) (h2 : v ∈ t.failStep) :
    runSteps t v (cnt + 1) db log = ⟨db, log, some (Err.stepError t.name v)⟩ := by
  simp [runSteps, h1, h2]

theorem runSteps_succ_miss (t : TableDef) (v cnt : Nat) (db : DB) (log : List Ev)
    (h1 : v ∉ t.hasStep) :
    runSteps t v (cnt + 1) db log = ⟨db, log, some (Err.missingStep t.name v)⟩ := by
  simp [runSteps, h1]

/-- A successful pass of the upgrade loop: when every step in the window is
defined and none raises, the loop commits exactly the steps
`v, v+1, …, v+cnt-1` in order and leaves the version store at the last one. -/
theorem runSteps_ok (t : TableDef) : ∀ cnt v (db : DB) (log : List Ev),
    (∀ u, v ≤ u → u < v + cnt → u ∈ t.hasStep ∧ u ∉ t.failStep) →
    (runSteps t v cnt db log).err = none ∧
    (runSteps t v cnt db log).log
      = log ++ (List.range' v cnt).map (fun u => Ev.step t.name u) ∧
    (runSteps t v cnt db log).db.tables = db.tables ∧
    (∀ m, m ≠ t.name →
      alookup (runSteps t v cnt db log).db.store m = alookup db.store m) ∧
    (0 < cnt → alookup (runSteps t v cnt db log).db.store t.name
      = (alookup db.store t.name).map (fun _ => v + cnt - 1)) := by
  intro cnt
  induction cnt with
  | zero => intro v db log _; simp [runSteps_zero]
  | succ cnt ih =>
    intro v db log hgood
    have hv := hgood v (Nat.le_refl v) (by omega)
    obtain ⟨ih1, ih2, ih3, ih4, ih5⟩ := ih (v + 1) (setVersion db t.name v)
      (log ++ [Ev.step t.name v]) (fun u h1 h2 => hgood u (by omega) (by omega))
    rw [runSteps_succ_step t v cnt db log hv.1 hv.2]
    refine ⟨ih1, ?_, by rw [ih3, setVersion_tables], ?_, ?_⟩
    · rw [ih2, List.range'_succ]
      simp
    · intro m hm
      rw [ih4 m hm, alookup_setVersion_ne db t.name m v hm]
    · intro _
      rcases Nat.eq_zero_or_pos cnt with hc | hc
      · subst hc
        rw [runSteps_zero, alookup_setVersion_self]
        congr 1
      · rw [ih5 hc, alookup_setVersion_self, Option.map_map]
        congr 1
        funext w
        simp only [Function.comp]
        omega

/-- A failing pass: steps `v … M-1` are defined and succeed, step `M` is
defined but raises. The loop commits exactly the steps before `M`, rolls the
failing transaction back, and aborts with `stepError` — the store is left at
`M-1` (or untouched when no step ran). -/
theorem runSteps_fail (t : TableDef) : ∀ cnt v (db : DB) (log : List Ev) (M : Nat),
    v ≤ M → M < v + cnt →
    (∀ u, v ≤ u → u < M → u ∈ t.hasStep ∧ u ∉ t.failStep) →
    M ∈ t.hasStep → M ∈ t.failStep →
    (runSteps t v cnt db log).err = some (Err.stepError t.name M) ∧
    (runSteps t v cnt db log).log
      = log ++ (List.range' v (M - v)).map (fun u => Ev.step t.name u) ∧
    (runSteps t v cnt db log).db.tables = db.tables ∧
    (∀ m, m ≠ t.name →
      alookup (runSteps t v cnt db log).db.store m = alookup db.store m) ∧
    (v < M → alookup (runSteps t v cnt db log).db.store t.name
      = (alookup db.store t.name).map (fun _ => M - 1)) ∧
    (v = M → (runSteps t v cnt db log).db = db) := by
  intro cnt
  induction cnt with
  | zero => intro v db log M h1 h2 _ _ _; omega
  | succ cnt ih =>
    intro v db log M h1 h2 hgood hMhas hMfail
    rcases Nat.eq_or_lt_of_le h1 with hvM | hvM
    · subst hvM
      rw [runSteps_succ_fail t v cnt db log hMhas hMfail]
      simp
    · have hv := hgood v (Nat.le_refl v) hvM
      obtain ⟨ih1, ih2, ih3, ih4, ih5, ih6⟩ := ih (v + 1) (setVersion db t.name v)
        (log ++ [Ev.step t.name v]) M (by omega) (by omega)
        (fun u hu1 hu2 => hgood u (by omega) hu2) hMhas hMfail
      rw [runSteps_succ_step t v cnt db log hv.1 hv.2]
      refine ⟨ih1, ?_, by rw [ih3, setVersion_tables], ?_, ?_, ?_⟩
      · have hM : M - v = (M - (v + 1)) + 1 := by omega
        rw [ih2, hM, List.range'_succ]
        simp
      · intro m hm
        rw [ih4 m hm, alookup_setVersion_ne db t.name m v hm]
      · intro _
        rcases Nat.eq_or_lt_of_le (Nat.succ_le_of_lt hvM) with hvM1 | hvM1
        · have h6 := ih6 hvM1
          rw [h6, alookup_setVersion_self]
          congr 1
          funext w
          omega
        · rw [ih5 hvM1, alookup_setVersion_self, Option.map_map]
          rfl
      · intro h
        omega

/-- A pass that reaches a missing step: steps `v … M-1` are defined and
succeed, the method for step `M` does not exist. The steps before the gap
were already executed and committed when the attribute lookup raises. -/
theorem runSteps_miss (t : TableDef) : ∀ cnt v (db : DB) (log : List Ev) (M : Nat),
    v ≤ M → M < v + cnt →
    (∀ u, v ≤ u → u < M → u ∈ t.hasStep ∧ u ∉ t.failStep) →
    M ∉ t.hasStep →
    (runSteps t v cnt db log).err = some (Err.missingStep t.name M) ∧
    (runSteps t v cnt db log).log
      = log ++ (List.range' v (M - v)).map (fun u => Ev.step t.name u) ∧
    (runSteps t v cnt db log).db.tables = db.tables ∧
    (∀ m, m ≠ t.name →
      alookup (runSteps t v cnt db log).db.store m = alookup db.store m) ∧
    (v < M → alookup (runSteps t v cnt db log).db.store t.name
      = (alookup db.store t.name).map (fun _ => M - 1)) ∧
    (v = M → (runSteps t v cnt db log).db = db) := by
  intro cnt
  induction cnt with
  | zero => intro v db log M h1 h2 _ _; omega
  | succ cnt ih =>
    intro v db log M h1 h2 hgood hMmiss
    rcases Nat.eq_or_lt_of_le h1 with hvM | hvM
    · subst hvM
      rw [runSteps_succ_miss t v cnt db log hMmiss]
      simp
    · have hv := hgood v (Nat.le_refl v) hvM
      obtain ⟨ih1, ih2, ih3, ih4, ih5, ih6⟩ := ih (v + 1) (setVersion db t.name v)
        (log ++ [Ev.step t.name v]) M (by omega) (by omega)
        (fun u hu1 hu2 => hgood u (by omega) hu2) hMmiss
      rw [runSteps_succ_step t v cnt db log hv.1 hv.2]
      refine ⟨ih1, ?_, by rw [ih3, setVersion_tables], ?_, ?_, ?_⟩
      · have hM : M - v = (M - (v + 1)) + 1 := by omega
        rw [ih2, hM, List.range'_succ]
        simp
      · intro m hm
        rw [ih4 m hm, alookup_setVersion_ne db t.name m v hm]
      · intro _
        rcases Nat.eq_or_lt_of_le (Nat.succ_le_of_lt hvM) with hvM1 | hvM1
        · have h6 := ih6 hvM1
          rw [h6, alookup_setVersion_self]
          congr 1
          funext w
          omega
        · rw [ih5 hvM1, alookup_setVersion_self, Option.map_map]
          rfl
      · intro h
        omega

/-! ## Unfolding equations -/

theorem bootSchema_exists {t : TableDef} {db : DB} (h : t.name ∈ db.tables) :
    bootSchema t db = ⟨db, [], none⟩ := by
  simp [bootSchema, h]

theorem bootSchema_stale {t : TableDef} {db : DB} {w : Nat}
    (h : t.name ∉ db.tables) (hs : alookup db.store t.name = some w) :
    bootSchema t db = ⟨⟨t.name :: db.tables, db.store⟩, [Ev.create t.name t.version],
      some (Err.insertFailed t.name)⟩ := by
  simp [bootSchema, h, hs]

theorem bootSchema_create {t : TableDef} {db : DB}
    (h : t.name ∉ db.tables) (hs : alookup db.store t.name = none) :
    bootSchema t db = ⟨⟨t.name :: db.tables, (t.name, t.version) :: db.store⟩,
      [Ev.create t.name t.version], none⟩ := by
  simp [bootSchema, h, hs]

theorem ownUpgrade_noStore {t : TableDef} {db : DB} {log : List Ev}
    (h : schemaName ∉ db.tables) :
    ownUpgrade t db log = ⟨db, log, some Err.storeUnavailable⟩ := by
  simp [ownUpgrade, h]

theorem ownUpgrade_createFailed {t : TableDef} {db : DB} {log : List Ev}
    (hs : schemaName ∈ db.tables) (h : alookup db.store t.name = none)
    (ht : t.name ∈ db.tables) :
    ownUpgrade t db log = ⟨db, log, some (Err.createFailed t.name)⟩ := by
  simp [ownUpgrade, hs, h, ht]

theorem ownUpgrade_create {t : TableDef} {db : DB} {log : List Ev}
    (hs : schemaName ∈ db.tables) (h : alookup db.store t.name = none)
    (ht : t.name ∉ db.tables) :
    ownUpgrade t db log = ⟨⟨t.name :: db.tables, (t.name, t.version) :: db.store⟩,
      log ++ [Ev.create t.name t.version], none⟩ := by
  simp [ownUpgrade, hs, h, ht]

theorem ownUpgrade_steps {t : TableDef} {db : DB} {log : List Ev} {sv : Nat}
    (hs : schemaName ∈ db.tables) (h : alookup db.store t.name = some sv)
    (hlt : sv < t.version) :
    ownUpgrade t db log = runSteps t (sv + 1) (t.version - sv) db log := by
  simp [ownUpgrade, hs, h, hlt]

theorem ownUpgrade_noop {t : TableDef} {db : DB} {log : List Ev} {sv : Nat}
    (hs : schemaName ∈ db.tables) (h : alookup db.store t.name = some sv)
    (hge : ¬sv < t.version) :
    ownUpgrade t db log = ⟨db, log, none⟩ := by
  simp [ownUpgrade, hs, h, hge]

theorem upgrade_schema_zero (env : List TableDef) (t : TableDef) (db : DB) :
    upgrade_schema env 0 t db = ⟨db, [], some Err.recursionLimit⟩ := rfl

theorem upgrade_schema_succ (env : List TableDef) (fuel : Nat) (t : TableDef)
    (db : DB) :
    upgrade_schema env (fuel + 1) t db
      = (if (upgradeDepList env fuel t.deps db).err.isSome
         then upgradeDepList env fuel t.deps db
         else ownUpgrade t (upgradeDepList env fuel t.deps db).db
           (upgradeDepList env fuel t.deps db).log) := rfl

theorem upgrade_schema_succ_err {env : List TableDef} {fuel : Nat} {t : TableDef} {db : DB}
    (he : (upgradeDepList env fuel t.deps db).err.isSome = true) :
    upgrade_schema env (fuel + 1) t db = upgradeDepList env fuel t.deps db := by
  rw [upgrade_schema_succ]
  simp only [he, if_true]

theorem upgrade_schema_succ_ok {env : List TableDef} {fuel : Nat} {t : TableDef} {db : DB}
    (he : (upgradeDepList env fuel t.deps db).err = none) :
    upgrade_schema env (fuel + 1) t db
      = ownUpgrade t (upgradeDepList env fuel t.deps db).db
          (upgradeDepList env fuel t.deps db).log := by
  rw [upgrade_schema_succ]
  simp only [he, Option.isSome_none, Bool.false_eq_true, if_false]

theorem upgradeDepList_nil (env : List TableDef) (fuel : Nat) (db : DB) :
    upgradeDepList env fuel [] db = ⟨db, [], none⟩ := rfl

theorem upgradeDepList_cons (env : List TableDef) (fuel : Nat) (d : String)
    (ds : List String) (db : DB) :
    upgradeDepList env fuel (d :: ds) db
      = (match lookupEnv env d with
         | none => ⟨db, [], some (Err.missingDep d)⟩
         | some td =>
           if td.versioned then
             if (dispatch env fuel td db).err.isSome then dispatch env fuel td db
             else
               ⟨(upgradeDepList env fuel ds (dispatch env fuel td db).db).db,
                 (dispatch env fuel td db).log
                   ++ (upgradeDepList env fuel ds (dispatch env fuel td db).db).log,
                 (upgradeDepList env fuel ds (dispatch env fuel td db).db).err⟩
           else ⟨db, [], some (Err.notVersioned d)⟩) := rfl

theorem upgradeDepList_cons_noEnv {env : List TableDef} {fuel : Nat} {d : String}
    {ds : List String} {db : DB} (hE : lookupEnv env d = none) :
    upgradeDepList env fuel (d :: ds) db = ⟨db, [], some (Err.missingDep d)⟩ := by
  rw [upgradeDepList_cons]
  simp only [hE]

theorem upgradeDepList_cons_notVersioned {env : List TableDef} {fuel : Nat} {d : String}
    {ds : List String} {db : DB} {td : TableDef} (hE : lookupEnv env d = some td)
    (hv : td.versioned = false) :
    upgradeDepList env fuel (d :: ds) db = ⟨db, [], some (Err.notVersioned d)⟩ := by
  rw [upgradeDepList_cons]
  simp only [hE, hv, Bool.false_eq_true, if_false]

theorem upgradeDepList_cons_err {env : List TableDef} {fuel : Nat} {d : String}
    {ds : List String} {db : DB} {td : TableDef} (hE : lookupEnv env d = some td)
    (hv : td.versioned = true) (he : (dispatch env fuel td db).err.isSome = true) :
    upgradeDepList env fuel (d :: ds) db = dispatch env fuel td db := by
  rw [upgradeDepList_cons]
  simp only [hE, hv, if_true, he]

theorem upgradeDepList_cons_ok {env : List TableDef} {fuel : Nat} {d : String}
    {ds : List String} {db : DB} {td : TableDef} (hE : lookupEnv env d = some td)
    (hv : td.versioned = true) (he : (dispatch env fuel td db).err = none) :
    upgradeDepList env fuel (d :: ds) db
      = ⟨(upgradeDepList env fuel ds (dispatch env fuel td db).db).db,
          (dispatch env fuel td db).log
            ++ (upgradeDepList env fuel ds (dispatch env fuel td db).db).log,
          (upgradeDepList env fuel ds (dispatch env fuel td db).db).err⟩ := by
  rw [upgradeDepList_cons]
  simp only [hE, hv, if_true, he, Option.isSome_none, Bool.false_eq_true, if_false]

theorem upgradeLoop_nil (env : List TableDef) (fuel : Nat) (db : DB) :
    upgradeLoop env fuel [] db = ⟨db, [], none⟩ := rfl

theorem upgradeLoop_cons_skip {env : List TableDef} {fuel : Nat} {t : TableDef}
    {ts : List TableDef} {db : DB} (hv : t.versioned = false) :
    upgradeLoop env fuel (t :: ts) db = upgradeLoop env fuel ts db := by
  simp [upgradeLoop, hv]

theorem upgradeLoop_cons_err {env : List TableDef} {fuel : Nat} {t : TableDef}
    {ts : List TableDef} {db : DB} (hv : t.versioned = true)
    (he : (dispatch env fuel t db).err.isSome = true) :
    upgradeLoop env fuel (t :: ts) db = dispatch env fuel t db := by
  simp [upgradeLoop, hv, he]

theorem upgradeLoop_cons_ok {env : List TableDef} {fuel : Nat} {t : TableDef}
    {ts : List TableDef} {db : DB} (hv : t.versioned = true)
    (he : (dispatch env fuel t db).err = none) :
    upgradeLoop env fuel (t :: ts) db
      = ⟨(upgradeLoop env fuel ts (dispatch env fuel t db).db).db,
          (dispatch env fuel t db).log
            ++ (upgradeLoop env fuel ts (dispatch env fuel t db).db).log,
          (upgradeLoop env fuel ts (dispatch env fuel t db).db).err⟩ := by
  simp [upgradeLoop, hv, he]

theorem checkLoop_cons (db : DB) (t : TableDef) (ts : List TableDef) :
    checkLoop db (t :: ts)
      = (if t.versioned then
          match is_up_to_date db t with
          | Except.error e => Except.error e
          | Except.ok b =>
            match checkLoop db ts with
            | Except.error e => Except.error e
            | Except.ok rest => Except.ok (if b then rest else t.name :: rest)
        else checkLoop db ts) := rfl

/-! ## Monotonicity: the stored version of a table never decreases -/


theorem DBLE_refl (db : DB) : DBLE db db :=
  ⟨fun _ h => h, fun _ v h => ⟨v, h, Nat.le_refl v⟩⟩

theorem DBLE_trans {db1 db2 db3 : DB} (h1 : DBLE db1 db2) (h2 : DBLE db2 db3) :
    DBLE db1 db3 := by
  refine ⟨fun n h => h2.1 n (h1.1 n h), fun n v h => ?_⟩
  obtain ⟨v', hv', hle⟩ := h1.2 n v h
  obtain ⟨v'', hv'', hle'⟩ := h2.2 n v' hv'
  exact ⟨v'', hv'', Nat.le_trans hle hle'⟩

theorem DBLE_setVersion {db : DB} {n : String} {v : Nat}
    (h : ∀ w, alookup db.store n = some w → w ≤ v) : DBLE db (setVersion db n v) := by
  refine ⟨fun m hm => hm, fun m u hu => ?_⟩
  by_cases hmn : m = n
  · subst hmn
    rw [alookup_setVersion_self, hu]
    exact ⟨v, rfl, h u hu⟩
  · rw [alookup_setVersion_ne db n m v hmn]
    exact ⟨u, hu, Nat.le_refl u⟩

theorem DBLE_create {db : DB} {n n' : String} {v : Nat}
    (h : alookup db.store n = none) :
    DBLE db ⟨n' :: db.tables, (n, v) :: db.store⟩ := by
  refine ⟨fun m hm => List.mem_cons_of_mem _ hm, fun m u hu => ?_⟩
  by_cases hmn : m = n
  · subst hmn
    rw [h] at hu
    cases hu
  · refine ⟨u, ?_, Nat.le_refl u⟩
    show (if (n, v).1 = m then some (n, v).2 else alookup db.store m) = some u
    rw [if_neg (fun hc => hmn (Eq.symm hc)), hu]

theorem DBLE_consTable {db : DB} (n : String) :
    DBLE db ⟨n :: db.tables, db.store⟩ :=
  ⟨fun _m hm => List.mem_cons_of_mem _ hm, fun _ u hu => ⟨u, hu, Nat.le_refl u⟩⟩

theorem runSteps_mono (t : TableDef) : ∀ cnt v (db : DB) (log : List Ev),
    (∀ w, alookup db.store t.name = some w → w < v) →
    DBLE db (runSteps t v cnt db log).db := by
  intro cnt
  induction cnt with
  | zero => intro v db log _; rw [runSteps_zero]; exact DBLE_refl db
  | succ cnt ih =>
    intro v db log hw
    by_cases h1 : v ∈ t.hasStep
    · by_cases h2 : v ∈ t.failStep
      · rw [runSteps_succ_fail t v cnt db log h1 h2]
        exact DBLE_refl db
      · rw [runSteps_succ_step t v cnt db log h1 h2]
        refine DBLE_trans (DBLE_setVersion (fun w hwv => Nat.le_of_lt (hw w hwv))) ?_
        refine ih (v + 1) (setVersion db t.name v) (log ++ [Ev.step t.name v]) ?_
        intro w hwv
        rw [alookup_setVersion_self] at hwv
        cases hE : alookup db.store t.name with
        | none => rw [hE] at hwv; cases hwv
        | some u =>
          rw [hE] at hwv
          simp only [Option.map_some', Option.some.injEq] at hwv
          omega
    · rw [runSteps_succ_miss t v cnt db log h1]
      exact DBLE_refl db

theorem bootSchema_mono (t : TableDef) (db : DB) : DBLE db (bootSchema t db).db := by
  by_cases h : t.name ∈ db.tables
  · rw [bootSchema_exists h]; exact DBLE_refl db
  · cases hs : alookup db.store t.name with
    | none => rw [bootSchema_create h hs]; exact DBLE_create hs
    | some w => rw [bootSchema_stale h hs]; exact DBLE_consTable t.name

theorem ownUpgrade_mono (t : TableDef) (db : DB) (log : List Ev) :
    DBLE db (ownUpgrade t db log).db := by
  by_cases hs : schemaName ∈ db.tables
  · cases h : alookup db.store t.name with
    | none =>
      by_cases ht : t.name ∈ db.tables
      · rw [ownUpgrade_createFailed hs h ht]; exact DBLE_refl db
      · rw [ownUpgrade_create hs h ht]; exact DBLE_create h
    | some sv =>
      by_cases hlt : sv < t.version
      · rw [ownUpgrade_steps hs h hlt]
        refine runSteps_mono t (t.version - sv) (sv + 1) db log ?_
        intro w hwv
        rw [h] at hwv
        cases hwv
        omega
      · rw [ownUpgrade_noop hs h hlt]; exact DBLE_refl db
  · rw [ownUpgrade_noStore hs]; exact DBLE_refl db

theorem depList_mono_of (env : List TableDef) (fuel : Nat)
    (hs : ∀ t db, DBLE db (upgrade_schema env fuel t db).db) :
    ∀ ds (db : DB), DBLE db (upgradeDepList env fuel ds db).db := by
  intro ds
  induction ds with
  | nil => intro db; rw [upgradeDepList_nil]; exact DBLE_refl db
  | cons d ds ih =>
    intro db
    cases hE : lookupEnv env d with
    | none => rw [upgradeDepList_cons_noEnv hE]; exact DBLE_refl db
    | some td =>
      cases hv : td.versioned with
      | false => rw [upgradeDepList_cons_notVersioned hE hv]; exact DBLE_refl db
      | true =>
        have hd : DBLE db (dispatch env fuel td db).db := by
          unfold dispatch
          by_cases hsp : td.special
          · rw [if_pos hsp]; exact bootSchema_mono td db
          · rw [if_neg hsp]; exact hs td db
        by_cases he : (dispatch env fuel td db).err.isSome
        · rw [upgradeDepList_cons_err hE hv he]
          exact hd
        · rw [upgradeDepList_cons_ok hE hv (Option.not_isSome_iff_eq_none.mp he)]
          exact DBLE_trans hd (ih (dispatch env fuel td db).db)

theorem upgrade_schema_mono (env : List TableDef) : ∀ fuel (t : TableDef) (db : DB),
    DBLE db (upgrade_schema env fuel t db).db := by
  intro fuel
  induction fuel with
  | zero =>
    intro t db
    rw [upgrade_schema_zero]
    exact DBLE_refl db
  | succ fuel ih =>
    intro t db
    have hdl : DBLE db (upgradeDepList env fuel t.deps db).db :=
      depList_mono_of env fuel ih t.deps db
    by_cases he : (upgradeDepList env fuel t.deps db).err.isSome
    · rw [upgrade_schema_succ_err he]
      exact hdl
    · rw [upgrade_schema_succ_ok (Option.not_isSome_iff_eq_none.mp he)]
      exact DBLE_trans hdl (ownUpgrade_mono t _ _)

theorem upgradeDepList_mono (env : List TableDef) (fuel : Nat) (ds : List String)
    (db : DB) : DBLE db (upgradeDepList env fuel ds db).db :=
  depList_mono_of env fuel (upgrade_schema_mono env fuel) ds db

theorem dispatch_mono (env : List TableDef) (fuel : Nat) (t : TableDef) (db : DB) :
    DBLE db (dispatch env fuel t db).db := by
  unfold dispatch
  by_cases hsp : t.special
  · rw [if_pos hsp]; exact bootSchema_mono t db
  · rw [if_neg hsp]; exact upgrade_schema_mono env fuel t db

theorem upgradeLoop_mono (env : List TableDef) (fuel : Nat) :
    ∀ ts (db : DB), DBLE db (upgradeLoop env fuel ts db).db := by
  intro ts
  induction ts with
  | nil => intro db; rw [upgradeLoop_nil]; exact DBLE_refl db
  | cons t ts ih =>
    intro db
    cases hv : t.versioned with
    | false => rw [upgradeLoop_cons_skip hv]; exact ih db
    | true =>
      by_cases he : (dispatch env fuel t db).err.isSome
      · rw [upgradeLoop_cons_err hv he]
        exact dispatch_mono env fuel t db
      · rw [upgradeLoop_cons_ok hv (Option.not_isSome_iff_eq_none.mp he)]
        exact DBLE_trans (dispatch_mono env fuel t db) (ih _)

/-! ## Environment lookups -/

theorem lookupEnv_name {env : List TableDef} {n : String} {td : TableDef}
    (h : lookupEnv env n = some td) : td.name = n := by
  have := List.find?_some h
  simpa using this

theorem lookupEnv_self {env : List TableDef} {n : String} {td : TableDef}
    (h : lookupEnv env n = some td) : lookupEnv env td.name = some td := by
  rw [lookupEnv_name h]
  exact h

/-! ## The store is bounded by the declared versions -/


theorem storeBounded_lookup {env : List TableDef} {s : List (String × Nat)}
    {n : String} {v : Nat} {td : TableDef} (hb : storeBounded env s = true)
    (hl : alookup s n = some v) (hE : lookupEnv env n = some td) :
    v ≤ td.version := by
  have hm := alookup_mem hl
  rw [storeBounded, List.all_eq_true] at hb
  have hx := hb (n, v) hm
  simp only [hE] at hx
  exact of_decide_eq_true hx

theorem storeBounded_setVersion {env : List TableDef} {db : DB} {n : String}
    {v : Nat} {td : TableDef} (hb : storeBounded env db.store = true)
    (hE : lookupEnv env n = some td) (hv : v ≤ td.version) :
    storeBounded env (setVersion db n v).store = true := by
  rw [storeBounded, List.all_eq_true]
  intro p hp
  rw [show (setVersion db n v).store
      = db.store.map (fun q => if q.1 = n then (n, v) else q) from rfl] at hp
  rw [List.mem_map] at hp
  obtain ⟨q, hq, rfl⟩ := hp
  by_cases hqn : q.1 = n
  · rw [if_pos hqn]
    simp only [hE]
    exact decide_eq_true hv
  · rw [if_neg hqn]
    rw [storeBounded, List.all_eq_true] at hb
    exact hb q hq

theorem storeBounded_cons {env : List TableDef} {s : List (String × Nat)}
    {n : String} {v : Nat} {td : TableDef} (hE : lookupEnv env n = some td)
    (hv : v ≤ td.version) (hb : storeBounded env s = true) :
    storeBounded env ((n, v) :: s) = true := by
  rw [storeBounded, List.all_eq_true]
  intro p hp
  rcases List.mem_cons.mp hp with rfl | hp
  · simp only [hE]
    exact decide_eq_true hv
  · rw [storeBounded, List.all_eq_true] at hb
    exact hb p hp

theorem storeBounded_runSteps {env : List TableDef} (t : TableDef) :
    ∀ cnt v (db : DB) (log : List Ev), storeBounded env db.store = true →
    lookupEnv env t.name = some t → v + cnt ≤ t.version + 1 →
    storeBounded env (runSteps t v cnt db log).db.store = true := by
  intro cnt
  induction cnt with
  | zero => intro v db log hb _ _; rw [runSteps_zero]; exact hb
  | succ cnt ih =>
    intro v db log hb hE hcnt
    by_cases h1 : v ∈ t.hasStep
    · by_cases h2 : v ∈ t.failStep
      · rw [runSteps_succ_fail t v cnt db log h1 h2]; exact hb
      · rw [runSteps_succ_step t v cnt db log h1 h2]
        exact ih (v + 1) _ _ (storeBounded_setVersion hb hE (by omega)) hE (by omega)
    · rw [runSteps_succ_miss t v cnt db log h1]; exact hb

theorem bootSchema_bounded {env : List TableDef} {t : TableDef} {db : DB}
    (hb : storeBounded env db.store = true) (hE : lookupEnv env t.name = some t) :
    storeBounded env (bootSchema t db).db.store = true := by
  by_cases h : t.name ∈ db.tables
  · rw [bootSchema_exists h]; exact hb
  · cases hs : alookup db.store t.name with
    | none =>
      rw [bootSchema_create h hs]
      exact storeBounded_cons hE (Nat.le_refl _) hb
    | some w => rw [bootSchema_stale h hs]; exact hb

theorem ownUpgrade_bounded {env : List TableDef} {t : TableDef} {db : DB}
    {log : List Ev} (hb : storeBounded env db.store = true)
    (hE : lookupEnv env t.name = some t) :
    storeBounded env (ownUpgrade t db log).db.store = true := by
  by_cases hs : schemaName ∈ db.tables
  · cases h : alookup db.store t.name with
    | none =>
      by_cases ht : t.name ∈ db.tables
      · rw [ownUpgrade_createFailed hs h ht]; exact hb
      · rw [ownUpgrade_create hs h ht]
        exact storeBounded_cons hE (Nat.le_refl _) hb
    | some sv =>
      by_cases hlt : sv < t.version
      · rw [ownUpgrade_steps hs h hlt]
        exact storeBounded_runSteps t (t.version - sv) (sv + 1) db log hb hE (by omega)
      · rw [ownUpgrade_noop hs h hlt]; exact hb
  · rw [ownUpgrade_noStore hs]; exact hb

theorem depList_bounded_of (env : List TableDef) (fuel : Nat)
    (hs : ∀ t (db : DB), lookupEnv env t.name = some t →
      storeBounded env db.store = true →
      storeBounded env (upgrade_schema env fuel t db).db.store = true) :
    ∀ ds (db : DB), storeBounded env db.store = true →
    storeBounded env (upgradeDepList env fuel ds db).db.store = true := by
  intro ds
  induction ds with
  | nil => intro db hb; rw [upgradeDepList_nil]; exact hb
  | cons d ds ih =>
    intro db hb
    cases hE : lookupEnv env d with
    | none => rw [upgradeDepList_cons_noEnv hE]; exact hb
    | some td =>
      cases hv : td.versioned with
      | false => rw [upgradeDepList_cons_notVersioned hE hv]; exact hb
      | true =>
        have hd : storeBounded env (dispatch env fuel td db).db.store = true := by
          unfold dispatch
          by_cases hsp : td.special
          · rw [if_pos hsp]; exact bootSchema_bounded hb (lookupEnv_self hE)
          · rw [if_neg hsp]; exact hs td db (lookupEnv_self hE) hb
        by_cases he : (dispatch env fuel td db).err.isSome
        · rw [upgradeDepList_cons_err hE hv he]; exact hd
        · rw [upgradeDepList_cons_ok hE hv (Option.not_isSome_iff_eq_none.mp he)]
          exact ih _ hd

theorem upgrade_schema_bounded (env : List TableDef) : ∀ fuel (t : TableDef) (db : DB),
    lookupEnv env t.name = some t → storeBounded env db.store = true →
    storeBounded env (upgrade_schema env fuel t db).db.store = true := by
  intro fuel
  induction fuel with
  | zero => intro t db _ hb; rw [upgrade_schema_zero]; exact hb
  | succ fuel ih =>
    intro t db hE hb
    have hdl : storeBounded env (upgradeDepList env fuel t.deps db).db.store = true :=
      depList_bounded_of env fuel ih t.deps db hb
    by_cases he : (upgradeDepList env fuel t.deps db).err.isSome
    · rw [upgrade_schema_succ_err he]; exact hdl
    · rw [upgrade_schema_succ_ok (Option.not_isSome_iff_eq_none.mp he)]
      exact ownUpgrade_bounded hdl hE

theorem upgradeDepList_bounded (env : List TableDef) (fuel : Nat) (ds : List String)
    (db : DB) (hb : storeBounded env db.store = true) :
    storeBounded env (upgradeDepList env fuel ds db).db.store = true :=
  depList_bounded_of env fuel (upgrade_schema_bounded env fuel) ds db hb

theorem dispatch_bounded {env : List TableDef} {fuel : Nat} {t : TableDef} {db : DB}
    (hb : storeBounded env db.store = true) (hE : lookupEnv env t.name = some t) :
    storeBounded env (dispatch env fuel t db).db.store = true := by
  unfold dispatch
  by_cases hsp : t.special
  · rw [if_pos hsp]; exact bootSchema_bounded hb hE
  · rw [if_neg hsp]; exact upgrade_schema_bounded env fuel t db hE hb

/-! ## Success postconditions -/

/-- A successful upgrade loop that had something to do leaves the record at
the last version it wrote. -/
theorem runSteps_final (t : TableDef) : ∀ cnt v (db : DB) (log : List Ev),
    (runSteps t v cnt db log).err = none →
    (alookup db.store t.name).isSome = true → 0 < cnt →
    alookup (runSteps t v cnt db log).db.store t.name = some (v + cnt - 1) := by
  intro cnt
  induction cnt with
  | zero => intro v db log _ _ hc; omega
  | succ cnt ih =>
    intro v db log he hsome _
    by_cases h1 : v ∈ t.hasStep
    · by_cases h2 : v ∈ t.failStep
      · rw [runSteps_succ_fail t v cnt db log h1 h2] at he
        cases he
      · rw [runSteps_succ_step t v cnt db log h1 h2] at he ⊢
        obtain ⟨w, hw⟩ := Option.isSome_iff_exists.mp hsome
        rcases Nat.eq_zero_or_pos cnt with hc | hc
        · subst hc
          rw [runSteps_zero, alookup_setVersion_self, hw]
          simp
        · rw [ih (v + 1) _ _ he (by rw [alookup_setVersion_self, hw]; rfl) hc]
          congr 1
          omega
    · rw [runSteps_succ_miss t v cnt db log h1] at he
      cases he

/-- A successful run of the creation/upgrade body leaves the record exactly
at the declared version, provided any pre-existing record did not already
exceed it. -/
theorem ownUpgrade_final {t : TableDef} {db : DB} {log : List Ev}
    (he : (ownUpgrade t db log).err = none)
    (hopt : ∀ w, alookup db.store t.name = some w → w ≤ t.version) :
    alookup (ownUpgrade t db log).db.store t.name = some t.version := by
  by_cases hs : schemaName ∈ db.tables
  · cases h : alookup db.store t.name with
    | none =>
      by_cases ht : t.name ∈ db.tables
      · rw [ownUpgrade_createFailed hs h ht] at he
        cases he
      · rw [ownUpgrade_create hs h ht]
        show (if (t.name, t.version).1 = t.name then some (t.name, t.version).2
          else alookup db.store t.name) = some t.version
        rw [if_pos rfl]
    | some sv =>
      by_cases hlt : sv < t.version
      · rw [ownUpgrade_steps hs h hlt] at he ⊢
        rw [runSteps_final t (t.version - sv) (sv + 1) db log he
          (by rw [h]; rfl) (by omega)]
        congr 1
        omega
      · rw [ownUpgrade_noop hs h hlt]
        have := hopt sv h
        have hsv : sv = t.version := by omega
        rw [h, hsv]
  · rw [ownUpgrade_noStore hs] at he
    cases he

/-- A successful `upgrade_schema` run on a catalogued table, starting from a
bounded store, leaves the table's record exactly at the declared version. -/
theorem upgrade_schema_final {env : List TableDef} {fuel : Nat} {t : TableDef}
    {db : DB} (hE : lookupEnv env t.name = some t)
    (hb : storeBounded env db.store = true)
    (he : (upgrade_schema env fuel t db).err = none) :
    alookup (upgrade_schema env fuel t db).db.store t.name = some t.version := by
  cases fuel with
  | zero =>
    rw [upgrade_schema_zero] at he
    cases he
  | succ fuel =>
    by_cases hd : (upgradeDepList env fuel t.deps db).err.isSome
    · rw [upgrade_schema_succ_err hd] at he
      rw [he] at hd
      cases hd
    · have hd' := Option.not_isSome_iff_eq_none.mp hd
      rw [upgrade_schema_succ_ok hd'] at he ⊢
      refine ownUpgrade_final he ?_
      intro w hw
      exact storeBounded_lookup (upgradeDepList_bounded env fuel t.deps db hb) hw hE

/-! ## Shape of the DDL log -/

/-- The upgrade loop only appends events, all of them on its own table. -/
theorem runSteps_log (t : TableDef) : ∀ cnt v (db : DB) (log : List Ev),
    ∃ ex, (runSteps t v cnt db log).log = log ++ ex ∧ ∀ e ∈ ex, evName e = t.name := by
  intro cnt
  induction cnt with
  | zero => intro v db log; rw [runSteps_zero]; exact ⟨[], by simp⟩
  | succ cnt ih =>
    intro v db log
    by_cases h1 : v ∈ t.hasStep
    · by_cases h2 : v ∈ t.failStep
      · rw [runSteps_succ_fail t v cnt db log h1 h2]
        exact ⟨[], by simp⟩
      · rw [runSteps_succ_step t v cnt db log h1 h2]
        obtain ⟨ex, hex, hall⟩ := ih (v + 1) (setVersion db t.name v)
          (log ++ [Ev.step t.name v])
        refine ⟨Ev.step t.name v :: ex, by rw [hex]; simp, ?_⟩
        intro e he
        rcases List.mem_cons.mp he with rfl | he
        · rfl
        · exact hall e he
    · rw [runSteps_succ_miss t v cnt db log h1]
      exact ⟨[], by simp⟩

/-- The creation/upgrade body only appends events on its own table. -/
theorem ownUpgrade_log (t : TableDef) (db : DB) (log : List Ev) :
    ∃ ex, (ownUpgrade t db log).log = log ++ ex ∧ ∀ e ∈ ex, evName e = t.name := by
  by_cases hs : schemaName ∈ db.tables
  · cases h : alookup db.store t.name with
    | none =>
      by_cases ht : t.name ∈ db.tables
      · rw [ownUpgrade_createFailed hs h ht]
        exact ⟨[], by simp⟩
      · rw [ownUpgrade_create hs h ht]
        refine ⟨[Ev.create t.name t.version], rfl, ?_⟩
        intro e he
        rcases List.mem_cons.mp he with rfl | he
        · rfl
        · cases he
    | some sv =>
      by_cases hlt : sv < t.version
      · rw [ownUpgrade_steps hs h hlt]
        exact runSteps_log t (t.version - sv) (sv + 1) db log
      · rw [ownUpgrade_noop hs h hlt]
        exact ⟨[], by simp⟩
  · rw [ownUpgrade_noStore hs]
    exact ⟨[], by simp⟩

/-! ## Postcondition of the dependency loop -/

/-- After a successful pass over a dependency list starting from a bounded
store, every non-special catalogued dependency's record is exactly at its
declared version. -/
theorem depList_post (env : List TableDef) (fuel : Nat) :
    ∀ ds (db : DB), storeBounded env db.store = true →
    (upgradeDepList env fuel ds db).err = none →
    ∀ d, d ∈ ds → ∀ td, lookupEnv env d = some td → td.special = false →
    alookup (upgradeDepList env fuel ds db).db.store td.name = some td.version := by
  intro ds
  induction ds with
  | nil => intro db _ _ d hd; cases hd
  | cons d0 ds ih =>
    intro db hb he d hd td hEd hsp
    cases hE0 : lookupEnv env d0 with
    | none => rw [upgradeDepList_cons_noEnv hE0] at he; cases he
    | some td0 =>
      cases hv0 : td0.versioned with
      | false => rw [upgradeDepList_cons_notVersioned hE0 hv0] at he; cases he
      | true =>
        by_cases hde : (dispatch env fuel td0 db).err.isSome
        · rw [upgradeDepList_cons_err hE0 hv0 hde] at he
          rw [he] at hde
          cases hde
        · have hde' := Option.not_isSome_iff_eq_none.mp hde
          rw [upgradeDepList_cons_ok hE0 hv0 hde'] at he ⊢
          have hbd : storeBounded env (dispatch env fuel td0 db).db.store = true :=
            dispatch_bounded hb (lookupEnv_self hE0)
          rcases List.mem_cons.mp hd with rfl | hd
          · have htd : td0 = td := by
              rw [hEd] at hE0
              cases hE0
              rfl
            subst htd
            have hfin : alookup (dispatch env fuel td0 db).db.store td0.name
                = some td0.version := by
              unfold dispatch
              rw [if_neg (by rw [hsp]; exact Bool.false_ne_true)]
              unfold dispatch at hde'
              rw [if_neg (by rw [hsp]; exact Bool.false_ne_true)] at hde'
              exact upgrade_schema_final (lookupEnv_self hEd) hb hde'
            obtain ⟨v', hv', hvle⟩ := (upgradeDepList_mono env fuel ds
              (dispatch env fuel td0 db).db).2 td0.name td0.version hfin
            have hub : v' ≤ td0.version := storeBounded_lookup
              (upgradeDepList_bounded env fuel ds _ hbd) hv' (lookupEnv_self hEd)
            have : v' = td0.version := by omega
            rw [hv', this]
          · exact ih (dispatch env fuel td0 db).db hbd he d hd td hEd hsp

theorem upgrade_schemas_mono (env : List TableDef) (fuel : Nat) (db : DB) :
    DBLE db (upgrade_schemas env fuel db).db := by
  unfold upgrade_schemas
  cases hE : lookupEnv env schemaName with
  | none => exact DBLE_refl db
  | some ts =>
    simp only []
    by_cases he : (dispatch env fuel ts db).err.isSome
    · simp only [he, if_true]
      exact dispatch_mono env fuel ts db
    · simp only [he, Bool.false_eq_true, if_false]
      exact DBLE_trans (dispatch_mono env fuel ts db) (upgradeLoop_mono env fuel env _)

/-! ## Settled states: a table on which `upgrade_schema` is a no-op -/


theorem settledT_special {env : List TableDef} {fuel : Nat} {t : TableDef} {db : DB}
    (hsp : t.special = true) :
    settledT env fuel t db = decide (t.name ∈ db.tables) := by
  rw [settledT.eq_def]
  simp only [hsp, if_true]

theorem settledT_zero {env : List TableDef} {t : TableDef} {db : DB}
    (hsp : t.special = false) : settledT env 0 t db = false := by
  rw [settledT.eq_def]
  simp only [hsp, Bool.false_eq_true, if_false]

theorem settledT_succ {env : List TableDef} {fuel : Nat} {t : TableDef} {db : DB}
    (hsp : t.special = false) :
    settledT env (fuel + 1) t db
      = (settledDeps env fuel t.deps db && decide (schemaName ∈ db.tables) &&
          (match alookup db.store t.name with
           | some v => decide (t.version ≤ v)
           | none => false)) := by
  rw [settledT.eq_def]
  simp only [hsp, Bool.false_eq_true, if_false]

theorem settledDeps_nil (env : List TableDef) (fuel : Nat) (db : DB) :
    settledDeps env fuel [] db = true := by
  rw [settledDeps.eq_def]

theorem settledDeps_cons (env : List TableDef) (fuel : Nat) (d : String)
    (ds : List String) (db : DB) :
    settledDeps env fuel (d :: ds) db
      = match lookupEnv env d with
        | none => false
        | some td =>
          td.versioned && settledT env fuel td db && settledDeps env fuel ds db := by
  rw [settledDeps.eq_def]

/-- Being settled survives any evolution of the database, dependency-list
version, parameterized by the single-table fact at the same fuel. -/
theorem settledDeps_ext_of (env : List TableDef) (fuel : Nat)
    (hT : ∀ (t : TableDef) (db db' : DB), DBLE db db' →
      settledT env fuel t db = true → settledT env fuel t db' = true) :
    ∀ ds (db db' : DB), DBLE db db' → settledDeps env fuel ds db = true →
    settledDeps env fuel ds db' = true := by
  intro ds
  induction ds with
  | nil => intro db db' _ _; rw [settledDeps_nil]
  | cons d ds ih =>
    intro db db' hle hs
    rw [settledDeps_cons] at hs ⊢
    cases hE : lookupEnv env d with
    | none => rw [hE] at hs; cases hs
    | some td =>
      rw [hE] at hs
      simp only [Bool.and_eq_true] at hs ⊢
      obtain ⟨⟨hv, hst⟩, hrest⟩ := hs
      exact ⟨⟨hv, hT td db db' hle hst⟩, ih db db' hle hrest⟩

/-- Being settled survives any evolution of the database. -/
theorem settledT_ext (env : List TableDef) : ∀ fuel (t : TableDef) (db db' : DB),
    DBLE db db' → settledT env fuel t db = true → settledT env fuel t db' = true := by
  intro fuel
  induction fuel with
  | zero =>
    intro t db db' hle hs
    by_cases hsp : t.special
    · rw [settledT_special hsp] at hs ⊢
      exact decide_eq_true (hle.1 t.name (of_decide_eq_true hs))
    · rw [settledT_zero (Bool.not_eq_true _ ▸ hsp : t.special = false)] at hs
      cases hs
  | succ fuel ih =>
    intro t db db' hle hs
    by_cases hsp : t.special
    · rw [settledT_special hsp] at hs ⊢
      exact decide_eq_true (hle.1 t.name (of_decide_eq_true hs))
    · have hsp' : t.special = false := Bool.not_eq_true _ ▸ hsp
      rw [settledT_succ hsp'] at hs ⊢
      simp only [Bool.and_eq_true] at hs
      obtain ⟨⟨hdeps, hschema⟩, hstore⟩ := hs
      simp only [Bool.and_eq_true]
      refine ⟨⟨settledDeps_ext_of env fuel ih t.deps db db' hle hdeps,
        decide_eq_true (hle.1 schemaName (of_decide_eq_true hschema))⟩, ?_⟩
      cases hv : alookup db.store t.name with
      | none => rw [hv] at hstore; cases hstore
      | some v =>
        rw [hv] at hstore
        obtain ⟨v', hv', hvle⟩ := hle.2 t.name v hv
        rw [hv']
        have := of_decide_eq_true hstore
        exact decide_eq_true (by omega)

theorem settledDeps_ext (env : List TableDef) (fuel : Nat) (ds : List String)
    (db db' : DB) (hle : DBLE db db') (hs : settledDeps env fuel ds db = true) :
    settledDeps env fuel ds db' = true :=
  settledDeps_ext_of env fuel (settledT_ext env fuel) ds db db' hle hs

/-- Dependency-list version of the no-op fact, parameterized by the
single-table fact at the same fuel. -/
theorem depList_noop_of (env : List TableDef) (fuel : Nat)
    (hD : ∀ (t : TableDef) (db : DB), settledT env fuel t db = true →
      dispatch env fuel t db = ⟨db, [], none⟩) :
    ∀ ds (db : DB), settledDeps env fuel ds db = true →
    upgradeDepList env fuel ds db = ⟨db, [], none⟩ := by
  intro ds
  induction ds with
  | nil => intro db _; exact upgradeDepList_nil env fuel db
  | cons d ds ih =>
    intro db hs
    rw [settledDeps_cons] at hs
    cases hE : lookupEnv env d with
    | none => rw [hE] at hs; cases hs
    | some td =>
      rw [hE] at hs
      simp only [Bool.and_eq_true] at hs
      obtain ⟨⟨hv, hst⟩, hrest⟩ := hs
      have hdisp := hD td db hst
      rw [upgradeDepList_cons_ok hE hv (by rw [hdisp])]
      simp [hdisp, ih db hrest]

/-- Dispatching `upgrade_schema` on a settled table is an exact no-op: same
database, no DDL, no error. -/
theorem dispatch_noop (env : List TableDef) : ∀ fuel (t : TableDef) (db : DB),
    settledT env fuel t db = true → dispatch env fuel t db = ⟨db, [], none⟩ := by
  intro fuel
  induction fuel with
  | zero =>
    intro t db hs
    by_cases hsp : t.special
    · rw [settledT_special hsp] at hs
      unfold dispatch
      rw [if_pos hsp]
      exact bootSchema_exists (of_decide_eq_true hs)
    · rw [settledT_zero (Bool.not_eq_true _ ▸ hsp : t.special = false)] at hs
      cases hs
  | succ fuel ih =>
    intro t db hs
    by_cases hsp : t.special
    · rw [settledT_special hsp] at hs
      unfold dispatch
      rw [if_pos hsp]
      exact bootSchema_exists (of_decide_eq_true hs)
    · have hsp' : t.special = false := Bool.not_eq_true _ ▸ hsp
      rw [settledT_succ hsp'] at hs
      simp only [Bool.and_eq_true] at hs
      obtain ⟨⟨hdeps, hschema⟩, hstore⟩ := hs
      have hdl : upgradeDepList env fuel t.deps db = ⟨db, [], none⟩ :=
        depList_noop_of env fuel ih t.deps db hdeps
      unfold dispatch
      rw [if_neg hsp]
      rw [upgrade_schema_succ_ok (by rw [hdl])]
      rw [hdl]
      simp only []
      cases hv : alookup db.store t.name with
      | none => rw [hv] at hstore; cases hstore
      | some v =>
        rw [hv] at hstore
        exact ownUpgrade_noop (of_decide_eq_true hschema) hv
          (by have := of_decide_eq_true hstore; omega)

/-- A successful `ownUpgrade` passed the store-availability guard. -/
theorem ownUpgrade_guard {t : TableDef} {db : DB} {log : List Ev}
    (he : (ownUpgrade t db log).err = none) : schemaName ∈ db.tables := by
  by_cases hs : schemaName ∈ db.tables
  · exact hs
  · rw [ownUpgrade_noStore hs] at he
    cases he

/-- A successful `ownUpgrade` leaves the record at or beyond the declared
version. -/
theorem ownUpgrade_final_ge {t : TableDef} {db : DB} {log : List Ev}
    (he : (ownUpgrade t db log).err = none) :
    ∃ v, alookup (ownUpgrade t db log).db.store t.name = some v ∧ t.version ≤ v := by
  have hs := ownUpgrade_guard he
  cases h : alookup db.store t.name with
  | none =>
    by_cases ht : t.name ∈ db.tables
    · rw [ownUpgrade_createFailed hs h ht] at he
      cases he
    · rw [ownUpgrade_create hs h ht]
      refine ⟨t.version, ?_, Nat.le_refl _⟩
      show (if (t.name, t.version).1 = t.name then some (t.name, t.version).2
        else alookup db.store t.name) = some t.version
      rw [if_pos rfl]
  | some sv =>
    by_cases hlt : sv < t.version
    · rw [ownUpgrade_steps hs h hlt] at he ⊢
      refine ⟨t.version, ?_, Nat.le_refl _⟩
      rw [runSteps_final t (t.version - sv) (sv + 1) db log he (by rw [h]; rfl) (by omega)]
      congr 1
      omega
    · rw [ownUpgrade_noop hs h hlt]
      exact ⟨sv, h, by omega⟩

/-- Dependency-list version of "success settles", parameterized by the
single-table fact at the same fuel. -/
theorem depList_settles_of (env : List TableDef) (fuel : Nat)
    (hD : ∀ (t : TableDef) (db : DB), (dispatch env fuel t db).err = none →
      settledT env fuel t (dispatch env fuel t db).db = true) :
    ∀ ds (db : DB), (upgradeDepList env fuel ds db).err = none →
    settledDeps env fuel ds (upgradeDepList env fuel ds db).db = true := by
  intro ds
  induction ds with
  | nil => intro db _; rw [settledDeps_nil]
  | cons d ds ih =>
    intro db he
    cases hE : lookupEnv env d with
    | none => rw [upgradeDepList_cons_noEnv hE] at he; cases he
    | some td =>
      cases hv : td.versioned with
      | false => rw [upgradeDepList_cons_notVersioned hE hv] at he; cases he
      | true =>
        by_cases hdisp : (dispatch env fuel td db).err.isSome
        · rw [upgradeDepList_cons_err hE hv hdisp] at he
          rw [he] at hdisp
          cases hdisp
        · have hdisp' := Option.not_isSome_iff_eq_none.mp hdisp
          rw [upgradeDepList_cons_ok hE hv hdisp'] at he ⊢
          rw [settledDeps_cons, hE]
          simp only [Bool.and_eq_true]
          refine ⟨⟨hv, ?_⟩, ?_⟩
          · exact settledT_ext env fuel td _ _
              (upgradeDepList_mono env fuel ds (dispatch env fuel td db).db)
              (hD td db hdisp')
          · exact ih (dispatch env fuel td db).db he

/-- After a successful dispatch, the table is settled in the resulting
database. -/
theorem dispatch_settles (env : List TableDef) : ∀ fuel (t : TableDef) (db : DB),
    (dispatch env fuel t db).err = none →
    settledT env fuel t (dispatch env fuel t db).db = true := by
  intro fuel
  induction fuel with
  | zero =>
    intro t db he
    by_cases hsp : t.special
    · rw [settledT_special hsp]
      refine decide_eq_true ?_
      unfold dispatch at he ⊢
      rw [if_pos hsp] at he ⊢
      by_cases h : t.name ∈ db.tables
      · rw [bootSchema_exists h]
        exact h
      · cases hst : alookup db.store t.name with
        | none => rw [bootSchema_create h hst]; exact List.mem_cons_self _ _
        | some w => rw [bootSchema_stale h hst] at he; cases he
    · unfold dispatch at he
      rw [if_neg hsp] at he
      rw [upgrade_schema_zero] at he
      cases he
  | succ fuel ih =>
    intro t db he
    by_cases hsp : t.special
    · rw [settledT_special hsp]
      refine decide_eq_true ?_
      unfold dispatch at he ⊢
      rw [if_pos hsp] at he ⊢
      by_cases h : t.name ∈ db.tables
      · rw [bootSchema_exists h]
        exact h
      · cases hst : alookup db.store t.name with
        | none => rw [bootSchema_create h hst]; exact List.mem_cons_self _ _
        | some w => rw [bootSchema_stale h hst] at he; cases he
    · have hsp' : t.special = false := Bool.not_eq_true _ ▸ hsp
      unfold dispatch at he ⊢
      rw [if_neg hsp] at he ⊢
      by_cases hd : (upgradeDepList env fuel t.deps db).err.isSome
      · rw [upgrade_schema_succ_err hd] at he
        rw [he] at hd
        cases hd
      · have hd' := Option.not_isSome_iff_eq_none.mp hd
        rw [upgrade_schema_succ_ok hd'] at he ⊢
        rw [settledT_succ hsp']
        have hmono : DBLE (upgradeDepList env fuel t.deps db).db
            (ownUpgrade t (upgradeDepList env fuel t.deps db).db
              (upgradeDepList env fuel t.deps db).log).db :=
          ownUpgrade_mono t _ _
        have hdeps : settledDeps env fuel t.deps
            (upgradeDepList env fuel t.deps db).db = true :=
          depList_settles_of env fuel ih t.deps db hd'
        simp only [Bool.and_eq_true]
        refine ⟨⟨settledDeps_ext env fuel t.deps _ _ hmono hdeps, ?_⟩, ?_⟩
        · exact decide_eq_true (hmono.1 schemaName (ownUpgrade_guard he))
        · obtain ⟨v, hv, hvle⟩ := ownUpgrade_final_ge he
          rw [hv]
          exact decide_eq_true hvle

/-- After a successful pass of the `upgrade_schemas` loop, every versioned
table it processed is settled in the resulting database. -/
theorem upgradeLoop_settles (env : List TableDef) (fuel : Nat) :
    ∀ ts (db : DB), (upgradeLoop env fuel ts db).err = none →
    ∀ t, t ∈ ts → t.versioned = true →
    settledT env fuel t (upgradeLoop env fuel ts db).db = true := by
  intro ts
  induction ts with
  | nil => intro db _ t ht; cases ht
  | cons t0 ts ih =>
    intro db he t ht hv
    cases hv0 : t0.versioned with
    | false =>
      rw [upgradeLoop_cons_skip hv0] at he ⊢
      rcases List.mem_cons.mp ht with rfl | ht
      · rw [hv0] at hv; cases hv
      · exact ih db he t ht hv
    | true =>
      by_cases hdisp : (dispatch env fuel t0 db).err.isSome
      · rw [upgradeLoop_cons_err hv0 hdisp] at he
        rw [he] at hdisp
        cases hdisp
      · have hdisp' := Option.not_isSome_iff_eq_none.mp hdisp
        rw [upgradeLoop_cons_ok hv0 hdisp'] at he ⊢
        rcases List.mem_cons.mp ht with rfl | ht
        · exact settledT_ext env fuel t _ _
            (upgradeLoop_mono env fuel ts (dispatch env fuel t db).db)
            (dispatch_settles env fuel t db hdisp')
        · exact ih (dispatch env fuel t0 db).db he t ht hv

/-- The `upgrade_schemas` loop over a list of settled tables is an exact
no-op. -/
theorem upgradeLoop_noop (env : List TableDef) (fuel : Nat) :
    ∀ ts (db : DB),
    (∀ t, t ∈ ts → t.versioned = true → settledT env fuel t db = true) →
    upgradeLoop env fuel ts db = ⟨db, [], none⟩ := by
  intro ts
  induction ts with
  | nil => intro db _; exact upgradeLoop_nil env fuel db
  | cons t0 ts ih =>
    intro db hs
    cases hv0 : t0.versioned with
    | false =>
      rw [upgradeLoop_cons_skip hv0]
      exact ih db (fun t ht hv => hs t (List.mem_cons_of_mem _ ht) hv)
    | true =>
      have hdisp := dispatch_noop env fuel t0 db (hs t0 (List.mem_cons_self _ _) hv0)
      rw [upgradeLoop_cons_ok hv0 (by rw [hdisp])]
      simp [hdisp, ih db (fun t ht hv => hs t (List.mem_cons_of_mem _ ht) hv)]

theorem upgrade_schemas_noEnv {env : List TableDef} {fuel : Nat} {db : DB}
    (hE : lookupEnv env schemaName = none) :
    upgrade_schemas env fuel db = ⟨db, [], some (Err.missingDep schemaName)⟩ := by
  unfold upgrade_schemas
  rw [hE]

theorem upgrade_schemas_err {env : List TableDef} {fuel : Nat} {db : DB}
    {ts : TableDef} (hE : lookupEnv env schemaName = some ts)
    (he : (dispatch env fuel ts db).err.isSome = true) :
    upgrade_schemas env fuel db = dispatch env fuel ts db := by
  unfold upgrade_schemas
  rw [hE]
  simp only [he, if_true]

theorem upgrade_schemas_ok {env : List TableDef} {fuel : Nat} {db : DB}
    {ts : TableDef} (hE : lookupEnv env schemaName = some ts)
    (he : (dispatch env fuel ts db).err = none) :
    upgrade_schemas env fuel db
      = ⟨(upgradeLoop env fuel env (dispatch env fuel ts db).db).db,
          (dispatch env fuel ts db).log
            ++ (upgradeLoop env fuel env (dispatch env fuel ts db).db).log,
          (upgradeLoop env fuel env (dispatch env fuel ts db).db).err⟩ := by
  unfold upgrade_schemas
  rw [hE]
  simp only [he, Option.isSome_none, Bool.false_eq_true, if_false]

/-! ## Claims -/

/-- C4 (counterexample): on the cyclic foreign-key configuration A→B→A, a
migration run does not reject the configuration with a dedicated
`DependencyCycleError` — no such exception exists anywhere in the code. The
run recurses through the cycle until the recursion limit is hit (here,
recursion budget 25) and fails with that limit error; no DDL has run and no
table has been created, but the failure is a recursion-depth crash, not a
detected cycle. -/
theorem claim_C4_counterexample :
    upgrade_schema fxCycEnv 10 fxCycA fxCycDb
      = ⟨fxCycDb, [], some Err.recursionLimit⟩ := by
  decide

/-- C4 (amended): for every recursion budget, running `upgrade_schema` on
either table of the cyclic foreign-key configuration A→B→A fails with the
recursion-limit error (the model of Python's `RecursionError`) before any
DDL runs and before any table is created — the database is returned
untouched and the DDL log is empty. No `DependencyCycleError` is raised,
because the code performs no cycle detection. -/
theorem claim_C4 : ∀ fuel : Nat,
    upgrade_schema fxCycEnv fuel fxCycA fxCycDb
      = ⟨fxCycDb, [], some Err.recursionLimit⟩ ∧
    upgrade_schema fxCycEnv fuel fxCycB fxCycDb
      = ⟨fxCycDb, [], some Err.recursionLimit⟩ := by
  intro fuel
  induction fuel with
  | zero => exact ⟨rfl, rfl⟩
  | succ fuel ih =>
    have hEB : lookupEnv fxCycEnv "accounts" = some fxCycB := rfl
    have hEA : lookupEnv fxCycEnv "identities" = some fxCycA := rfl
    have hdB : dispatch fxCycEnv fuel fxCycB fxCycDb
        = ⟨fxCycDb, [], some Err.recursionLimit⟩ := by
      have hd : dispatch fxCycEnv fuel fxCycB fxCycDb
          = upgrade_schema fxCycEnv fuel fxCycB fxCycDb := rfl
      rw [hd, ih.2]
    have hdA : dispatch fxCycEnv fuel fxCycA fxCycDb
        = ⟨fxCycDb, [], some Err.recursionLimit⟩ := by
      have hd : dispatch fxCycEnv fuel fxCycA fxCycDb
          = upgrade_schema fxCycEnv fuel fxCycA fxCycDb := rfl
      rw [hd, ih.1]
    constructor
    · have hdl : upgradeDepList fxCycEnv fuel fxCycA.deps fxCycDb
          = ⟨fxCycDb, [], some Err.recursionLimit⟩ := by
        show upgradeDepList fxCycEnv fuel ["accounts"] fxCycDb = _
        rw [upgradeDepList_cons_err hEB rfl (by rw [hdB]; rfl)]
        exact hdB
      rw [upgrade_schema_succ_err (by rw [hdl]; rfl)]
      exact hdl
    · have hdl : upgradeDepList fxCycEnv fuel fxCycB.deps fxCycDb
          = ⟨fxCycDb, [], some Err.recursionLimit⟩ := by
        show upgradeDepList fxCycEnv fuel ["identities"] fxCycDb = _
        rw [upgradeDepList_cons_err hEA rfl (by rw [hdA]; rfl)]
        exact hdA
      rw [upgrade_schema_succ_err (by rw [hdl]; rfl)]
      exact hdl

/-- C5 (counterexample): table `log` is stored at version 1, declares target
4, defines steps 1→2 and 3→4 but not 2→3. The run does not surface the
configuration error immediately with no partial application: step 1→2 is
executed and committed (it appears in the DDL log and the store moves to
version 2) before the missing `upgrade_2_to_3` attribute raises. -/
theorem claim_C5_counterexample :
    (upgrade_schema fxGapEnv 1 fxGapT fxStepDb).err
        = some (Err.missingStep "log" 3) ∧
    (upgrade_schema fxGapEnv 1 fxGapT fxStepDb).log = [Ev.step "log" 2] ∧
    alookup (upgrade_schema fxGapEnv 1 fxGapT fxStepDb).db.store "log" = some 2 := by
  refine ⟨?_, ?_, ?_⟩ <;> decide

/-- C5 (amended): when the chain of upgrade steps from stored version `N`
towards the target has its first gap at step `M-1`→`M` (the method for `M`
does not exist), the run fails with the missing-step (attribute) error only
when that step is reached: the steps before the gap are executed and
committed — the DDL log records exactly steps `N+1 … M-1` and the version
store afterwards records `M-1` — rather than the error being surfaced before
any step runs. -/
theorem claim_C5 (env : List TableDef) (fuel : Nat) (t : TableDef) (db : DB)
    (N M : Nat)
    (hdeps : t.deps = [])
    (hschema : schemaName ∈ db.tables)
    (hstored : alookup db.store t.name = some N)
    (hNM : N < M) (hMT : M ≤ t.version)
    (hgood : ∀ v, N < v → v < M → v ∈ t.hasStep ∧ v ∉ t.failStep)
    (hMmiss : M ∉ t.hasStep) :
    (upgrade_schema env (fuel + 1) t db).err = some (Err.missingStep t.name M) ∧
    alookup (upgrade_schema env (fuel + 1) t db).db.store t.name = some (M - 1) ∧
    (upgrade_schema env (fuel + 1) t db).log
      = (List.range' (N + 1) (M - 1 - N)).map (fun u => Ev.step t.name u) ∧
    (upgrade_schema env (fuel + 1) t db).db.tables = db.tables := by
  have hdl : upgradeDepList env fuel t.deps db = ⟨db, [], none⟩ := by
    rw [hdeps]
    exact upgradeDepList_nil env fuel db
  have h0 : upgrade_schema env (fuel + 1) t db
      = runSteps t (N + 1) (t.version - N) db [] := by
    rw [upgrade_schema_succ_ok (by rw [hdl])]
    rw [hdl]
    exact ownUpgrade_steps hschema hstored (by omega)
  obtain ⟨hf1, hf2, hf3, hf4, hf5, hf6⟩ := runSteps_miss t (t.version - N) (N + 1)
    db [] M (by omega) (by omega) (fun u h1 h2 => hgood u (by omega) h2) hMmiss
  refine ⟨by rw [h0]; exact hf1, ?_, ?_, by rw [h0]; exact hf3⟩
  · by_cases hM1 : N + 1 = M
    · rw [h0, hf6 hM1, hstored]
      congr 1
      omega
    · rw [h0, hf5 (by omega), hstored]
      show some (M - 1) = some (M - 1)
      rfl
  · have hlen : M - (N + 1) = M - 1 - N := by omega
    rw [h0, hf2, hlen]
    simp

/-- C5 (witness of the amended claim): the concrete gap configuration. -/
theorem claim_C5_witness :
    (upgrade_schema fxGapEnv 1 fxGapT fxStepDb).err
        = some (Err.missingStep fxGapT.name 3) ∧
    alookup (upgrade_schema fxGapEnv 1 fxGapT fxStepDb).db.store fxGapT.name
        = some 2 ∧
    (upgrade_schema fxGapEnv 1 fxGapT fxStepDb).log
      = (List.range' 2 1).map (fun u => Ev.step fxGapT.name u) ∧
    (upgrade_schema fxGapEnv 1 fxGapT fxStepDb).db.tables = fxStepDb.tables :=
  claim_C5 fxGapEnv 0 fxGapT fxStepDb 1 3 (by decide) (by decide) (by decide)
    (by decide) (by decide)
    (by intro v h1 h2
        have hv : v = 2 := by omega
        subst hv
        exact ⟨by decide, by decide⟩)
    (by decide)

/-- C6: after a successful `upgrade_schema` run on a catalogued table whose
stored version (like any version the engine itself recorded) does not exceed
the declared one, the store records exactly the declared target version; and
across any run, successful or not, no table's stored version ever
decreases. -/
theorem claim_C6 (env : List TableDef) (fuel : Nat) (t : TableDef) (db : DB)
    (henv : lookupEnv env t.name = some t)
    (hb : storeBounded env db.store = true) :
    ((upgrade_schema env fuel t db).err = none →
      alookup (upgrade_schema env fuel t db).db.store t.name = some t.version) ∧
    (∀ n v, alookup db.store n = some v →
      ∃ v', alookup (upgrade_schema env fuel t db).db.store n = some v' ∧ v ≤ v') :=
  ⟨fun he => upgrade_schema_final henv hb he,
   fun n v hv => (upgrade_schema_mono env fuel t db).2 n v hv⟩

/-- C6 (witness): upgrading `credentials` from stored version 1 to its
declared version 2. -/
theorem claim_C6_witness :
    alookup (upgrade_schema fxUpEnv 1 fxUpT fxUpDb).db.store fxUpT.name
      = some fxUpT.version :=
  (claim_C6 fxUpEnv 1 fxUpT fxUpDb (by decide) (by decide)).1 (by decide)

/-- C7: running the full migration twice in succession with no change to
the declared model executes zero DDL on the second run and leaves the
database — in particular the version store — unchanged: if the first
`upgrade_schemas` run succeeds, the second run returns the same database
with an empty DDL log and no error. -/
theorem claim_C7 (env : List TableDef) (fuel : Nat) (db : DB)
    (h : (upgrade_schemas env fuel db).err = none) :
    upgrade_schemas env fuel (upgrade_schemas env fuel db).db
      = ⟨(upgrade_schemas env fuel db).db, [], none⟩ := by
  cases hE : lookupEnv env schemaName with
  | none =>
    rw [upgrade_schemas_noEnv hE] at h
    cases h
  | some ts =>
    by_cases hd : (dispatch env fuel ts db).err.isSome
    · rw [upgrade_schemas_err hE hd] at h
      rw [h] at hd
      cases hd
    · have hd' := Option.not_isSome_iff_eq_none.mp hd
      rw [upgrade_schemas_ok hE hd'] at h ⊢
      simp only [] at h ⊢
      have hsettledTs : settledT env fuel ts
          (upgradeLoop env fuel env (dispatch env fuel ts db).db).db = true :=
        settledT_ext env fuel ts _ _
          (upgradeLoop_mono env fuel env (dispatch env fuel ts db).db)
          (dispatch_settles env fuel ts db hd')
      have hsettledAll : ∀ t, t ∈ env → t.versioned = true →
          settledT env fuel t
            (upgradeLoop env fuel env (dispatch env fuel ts db).db).db = true :=
        upgradeLoop_settles env fuel env (dispatch env fuel ts db).db h
      have hdisp2 := dispatch_noop env fuel ts _ hsettledTs
      rw [upgrade_schemas_ok hE (by rw [hdisp2])]
      rw [hdisp2]
      simp only []
      rw [upgradeLoop_noop env fuel env _ hsettledAll]
      rfl

/-- C1: a table (with no foreign-key dependencies) stored at version `N`
behind its target `T = t.version`; the steps up to `M-1` succeed and step
`M-1`→`M` raises. The run aborts with that step's error, the failing step's
transaction is rolled back and the version store still records `M-1` (the
last successfully committed version, with the physical tables untouched by
the rollback). A subsequent run with the step corrected (`t'`, same table
name, target and an all-good chain from `M` up) resumes by applying exactly
the steps `M … T` — its DDL log starts at step `M` and re-runs no earlier
step — and completes at the declared version. -/
theorem claim_C1 (env : List TableDef) (fuel : Nat) (t t' : TableDef) (db : DB)
    (N M : Nat)
    (hdeps : t.deps = [])
    (hschema : schemaName ∈ db.tables)
    (hstored : alookup db.store t.name = some N)
    (hNM : N < M) (hMT : M ≤ t.version)
    (hgood : ∀ v, N < v → v < M → v ∈ t.hasStep ∧ v ∉ t.failStep)
    (hMhas : M ∈ t.hasStep) (hMfail : M ∈ t.failStep)
    (hname : t'.name = t.name) (hdeps' : t'.deps = [])
    (hver : t'.version = t.version)
    (hgood' : ∀ v, M ≤ v → v ≤ t.version → v ∈ t'.hasStep ∧ v ∉ t'.failStep) :
    (upgrade_schema env (fuel + 1) t db).err = some (Err.stepError t.name M) ∧
    alookup (upgrade_schema env (fuel + 1) t db).db.store t.name = some (M - 1) ∧
    (upgrade_schema env (fuel + 1) t db).db.tables = db.tables ∧
    (upgrade_schema env (fuel + 1) t'
        (upgrade_schema env (fuel + 1) t db).db).err = none ∧
    alookup (upgrade_schema env (fuel + 1) t'
        (upgrade_schema env (fuel + 1) t db).db).db.store t.name
      = some t.version ∧
    (upgrade_schema env (fuel + 1) t'
        (upgrade_schema env (fuel + 1) t db).db).log
      = (List.range' M (t.version + 1 - M)).map (fun u => Ev.step t.name u) := by
  have hdl : upgradeDepList env fuel t.deps db = ⟨db, [], none⟩ := by
    rw [hdeps]
    exact upgradeDepList_nil env fuel db
  have h0 : upgrade_schema env (fuel + 1) t db
      = runSteps t (N + 1) (t.version - N) db [] := by
    rw [upgrade_schema_succ_ok (by rw [hdl])]
    rw [hdl]
    exact ownUpgrade_steps hschema hstored (by omega)
  obtain ⟨hf1, hf2, hf3, hf4, hf5, hf6⟩ := runSteps_fail t (t.version - N) (N + 1)
    db [] M (by omega) (by omega) (fun u h1 h2 => hgood u (by omega) h2) hMhas hMfail
  have hstore1 : alookup (upgrade_schema env (fuel + 1) t db).db.store t.name
      = some (M - 1) := by
    by_cases hM1 : N + 1 = M
    · rw [h0, hf6 hM1, hstored]
      congr 1
      omega
    · rw [h0, hf5 (by omega), hstored]
      show some (M - 1) = some (M - 1)
      rfl
  have htab1 : (upgrade_schema env (fuel + 1) t db).db.tables = db.tables := by
    rw [h0]
    exact hf3
  have hschema1 : schemaName ∈ (upgrade_schema env (fuel + 1) t db).db.tables := by
    rw [htab1]
    exact hschema
  have hstore1' : alookup (upgrade_schema env (fuel + 1) t db).db.store t'.name
      = some (M - 1) := by
    rw [hname]
    exact hstore1
  have hdl2 : upgradeDepList env fuel t'.deps (upgrade_schema env (fuel + 1) t db).db
      = ⟨(upgrade_schema env (fuel + 1) t db).db, [], none⟩ := by
    rw [hdeps']
    exact upgradeDepList_nil env fuel _
  have hM1 : M - 1 + 1 = M := by omega
  have h1 : upgrade_schema env (fuel + 1) t' (upgrade_schema env (fuel + 1) t db).db
      = runSteps t' M (t'.version - (M - 1)) (upgrade_schema env (fuel + 1) t db).db
          [] := by
    rw [upgrade_schema_succ_ok (by rw [hdl2])]
    rw [hdl2]
    rw [show ((⟨(upgrade_schema env (fuel + 1) t db).db, [], none⟩ : Res)).db
      = (upgrade_schema env (fuel + 1) t db).db from rfl]
    rw [← hM1]
    exact ownUpgrade_steps hschema1 hstore1' (by omega)
  obtain ⟨hk1, hk2, hk3, hk4, hk5⟩ := runSteps_ok t' (t'.version - (M - 1)) M
    (upgrade_schema env (fuel + 1) t db).db []
    (fun u hu1 hu2 => hgood' u hu1 (by omega))
  refine ⟨by rw [h0]; exact hf1, hstore1, htab1, by rw [h1]; exact hk1, ?_, ?_⟩
  · rw [← hname, h1, hk5 (by omega), hstore1']
    show some (M + (t'.version - (M - 1)) - 1) = some t.version
    congr 1
    omega
  · rw [h1, hk2]
    have hlen : t'.version - (M - 1) = t.version + 1 - M := by omega
    rw [hlen, hname]
    simp

/-- C1 (witness): `log` stored at 1 with target 3; step 2→3 raises on the
first run and is corrected for the second. -/
theorem claim_C1_witness :
    (upgrade_schema fxStepEnv 1 fxStepT fxStepDb).err
        = some (Err.stepError fxStepT.name 3) ∧
    alookup (upgrade_schema fxStepEnv 1 fxStepT fxStepDb).db.store fxStepT.name
        = some 2 ∧
    (upgrade_schema fxStepEnv 1 fxStepT fxStepDb).db.tables = fxStepDb.tables ∧
    (upgrade_schema fxStepEnv 1 fxStepT'
        (upgrade_schema fxStepEnv 1 fxStepT fxStepDb).db).err = none ∧
    alookup (upgrade_schema fxStepEnv 1 fxStepT'
        (upgrade_schema fxStepEnv 1 fxStepT fxStepDb).db).db.store fxStepT.name
      = some fxStepT.version ∧
    (upgrade_schema fxStepEnv 1 fxStepT'
        (upgrade_schema fxStepEnv 1 fxStepT fxStepDb).db).log
      = (List.range' 3 (fxStepT.version + 1 - 3)).map
          (fun u => Ev.step fxStepT.name u) :=
  claim_C1 fxStepEnv 0 fxStepT fxStepT' fxStepDb 1 3 (by decide) (by decide)
    (by decide) (by decide) (by decide)
    (by intro v h1 h2
        have hv : v = 2 := by omega
        subst hv
        exact ⟨by decide, by decide⟩)
    (by decide) (by decide) (by decide) (by decide) (by decide)
    (by intro v h1 h2
        rw [show fxStepT.version = 3 from rfl] at h2
        have hv : v = 3 := by omega
        subst hv
        exact ⟨by decide, by decide⟩)

/-- C3: `is_up_to_date` returns true exactly when the table physically
exists, a `Schema` record for its name is present in the version store, and
that record's version equals the declared one. (The well-formedness
hypothesis only states that the rows of the version store live in its
physical table: when the `schema` table does not exist, the store has no
rows.) -/
theorem claim_C3 (db : DB) (t : TableDef)
    (hwf : schemaName ∉ db.tables → db.store = []) :
    is_up_to_date db t = Except.ok true
      ↔ (t.name ∈ db.tables ∧ alookup db.store t.name = some t.version) := by
  unfold is_up_to_date
  by_cases ht : t.name ∈ db.tables
  · rw [if_pos ht]
    by_cases hs : schemaName ∈ db.tables
    · rw [if_pos hs]
      cases hl : alookup db.store t.name with
      | none =>
        simp only [ht, true_and, hl]
        constructor
        · intro h
          cases h
        · intro h
          cases h
      | some v =>
        simp only [ht, true_and, hl]
        constructor
        · intro h
          have hv : decide (v = t.version) = true := by
            cases hd : decide (v = t.version) with
            | false => rw [hd] at h; cases h
            | true => rfl
          rw [of_decide_eq_true hv]
        · intro h
          cases h
          rw [decide_eq_true rfl]
    · rw [if_neg hs]
      rw [hwf hs]
      simp [alookup]
  · rw [if_neg ht]
    simp only [ht, false_and, iff_false]
    intro h
    cases h

/-- C3 (witness): an up-to-date table and a lagging one. -/
theorem claim_C3_witness :
    is_up_to_date ⟨["schema", "identities"], [("schema", 1), ("identities", 1)]⟩
      fxIdent = Except.ok true :=
  (claim_C3 ⟨["schema", "identities"], [("schema", 1), ("identities", 1)]⟩ fxIdent
    (by decide)).mpr (by decide)

/-- C9 (counterexample): with the `identities` table physically present but
the `schema` metadata table missing, `is_up_to_date` does not report the
table as not up to date — it raises the store error (the bare
`except NoResultFound` does not catch the `OperationalError` of querying a
missing table), and `check_schema_versions` propagates the same error
instead of collecting the table into the out-of-date list. -/
theorem claim_C9_counterexample :
    is_up_to_date ⟨["identities"], []⟩ fxIdent = Except.error Err.storeUnavailable ∧
    check_schema_versions fxIdEnv ⟨["identities"], []⟩
      = Except.error Err.storeUnavailable :=
  ⟨rfl, rfl⟩

/-- C9 (amended): the up-to-date check survives a missing version store only
through the `has_table` short-circuit: a table that does not physically
exist is reported not up to date without the store being queried (so
first-run bootstrap against an empty database proceeds, and on a database
with no tables at all `check_schema_versions` collects every versioned table
instead of crashing); but for a table that does physically exist while the
metadata table is missing, the store query raises `storeUnavailable` and the
check crashes rather than treating it as "not up to date". -/
theorem claim_C9 (db : DB) (t : TableDef) :
    (t.name ∉ db.tables → is_up_to_date db t = Except.ok false) ∧
    (t.name ∈ db.tables → schemaName ∉ db.tables →
      is_up_to_date db t = Except.error Err.storeUnavailable) ∧
    (db.tables = [] → ∀ ts : List TableDef,
      checkLoop db ts
        = Except.ok ((ts.filter (fun u => u.versioned)).map TableDef.name)) := by
  refine ⟨?_, ?_, ?_⟩
  · intro h
    unfold is_up_to_date
    rw [if_neg h]
  · intro ht hs
    unfold is_up_to_date
    rw [if_pos ht, if_neg hs]
  · intro hemp ts
    induction ts with
    | nil => rfl
    | cons u ts ih =>
      cases hv : u.versioned with
      | false =>
        rw [checkLoop_cons, if_neg (by rw [hv]; exact Bool.false_ne_true), ih]
        simp [hv]
      | true =>
        rw [checkLoop_cons, if_pos hv]
        have hup : is_up_to_date db u = Except.ok false := by
          unfold is_up_to_date
          rw [if_neg (by rw [hemp]; exact List.not_mem_nil u.name)]
        rw [hup, ih]
        simp [hv]

/-- C9 (witness of the amended claim): empty database. -/
theorem claim_C9_witness :
    is_up_to_date ⟨[], []⟩ fxIdent = Except.ok false ∧
    checkLoop ⟨[], []⟩ fxIdEnv
      = Except.ok ((fxIdEnv.filter (fun u => u.versioned)).map TableDef.name) :=
  ⟨(claim_C9 ⟨[], []⟩ fxIdent).1 (by decide),
   (claim_C9 ⟨[], []⟩ fxIdent).2.2 rfl fxIdEnv⟩

/-- C10: tables lacking a `versioned_schema` attribute are skipped by both
passes — `check_schema_versions`'s collection loop and `upgrade_schemas`'s
upgrade loop behave exactly as if those tables were absent from the catalog
(so such a table is never created or altered and never appears in the
out-of-date list) — and on a catalog consisting only of such tables
`check_schema_versions` returns without raising, even against a database in
which they do not exist. -/
theorem claim_C10 (env : List TableDef) (fuel : Nat) (db : DB)
    (l : List TableDef) :
    checkLoop db l = checkLoop db (l.filter (fun u => u.versioned)) ∧
    upgradeLoop env fuel l db = upgradeLoop env fuel (l.filter (fun u => u.versioned)) db ∧
    ((∀ u ∈ l, u.versioned = false) → check_schema_versions l db = Except.ok ()) := by
  have hcheck : ∀ (m : List TableDef),
      checkLoop db m = checkLoop db (m.filter (fun u => u.versioned)) := by
    intro m
    induction m with
    | nil => rfl
    | cons u m ih =>
      cases hv : u.versioned with
      | false =>
        rw [show (u :: m).filter (fun u => u.versioned)
          = m.filter (fun u => u.versioned) by simp [List.filter, hv]]
        rw [checkLoop_cons, if_neg (by rw [hv]; exact Bool.false_ne_true)]
        exact ih
      | true =>
        rw [show (u :: m).filter (fun u => u.versioned)
          = u :: m.filter (fun u => u.versioned) by simp [List.filter, hv]]
        rw [checkLoop_cons db u m, checkLoop_cons db u (m.filter (fun u => u.versioned))]
        rw [if_pos hv, if_pos hv, ih]
  have hloop : ∀ (m : List TableDef) (d : DB),
      upgradeLoop env fuel m d = upgradeLoop env fuel (m.filter (fun u => u.versioned)) d := by
    intro m
    induction m with
    | nil => intro d; rfl
    | cons u m ih =>
      intro d
      cases hv : u.versioned with
      | false =>
        rw [show (u :: m).filter (fun u => u.versioned)
          = m.filter (fun u => u.versioned) by simp [List.filter, hv]]
        rw [upgradeLoop_cons_skip hv]
        exact ih d
      | true =>
        rw [show (u :: m).filter (fun u => u.versioned)
          = u :: m.filter (fun u => u.versioned) by simp [List.filter, hv]]
        by_cases he : (dispatch env fuel u d).err.isSome
        · rw [upgradeLoop_cons_err hv he, upgradeLoop_cons_err hv he]
        · have he' := Option.not_isSome_iff_eq_none.mp he
          rw [upgradeLoop_cons_ok hv he', upgradeLoop_cons_ok hv he', ih]
  refine ⟨hcheck l, hloop l db, ?_⟩
  intro hall
  have hfilter : l.filter (fun u => u.versioned) = [] := by
    rw [List.filter_eq_nil_iff]
    intro u hu
    rw [hall u hu]
    exact Bool.false_ne_true
  unfold check_schema_versions
  rw [hcheck l, hfilter]
  rfl

/-- C10 (witness): a single unversioned table absent from the database. -/
theorem claim_C10_witness :
    check_schema_versions [fxGhost] ⟨[], []⟩ = Except.ok () :=
  (claim_C10 [fxGhost] 1 ⟨[], []⟩ [fxGhost]).2.2 (by decide)

/-- C7 (witness): a model with the version store, `accounts` and
`identities`, migrated twice from an empty database. -/
theorem claim_C7_witness :
    upgrade_schemas fxDepEnv 5 (upgrade_schemas fxDepEnv 5 ⟨[], []⟩).db
      = ⟨(upgrade_schemas fxDepEnv 5 ⟨[], []⟩).db, [], none⟩ :=
  claim_C7 fxDepEnv 5 ⟨[], []⟩ (by decide)

/-- C8: for a table `A` with a foreign key to a non-special catalogued table
`B` (starting from a bounded, engine-written store, in a configuration where
the dependency pass does not reach `A` itself — i.e. no cycle through `A`):
if the dependency pass succeeds, `B`'s stored version equals its declared
target at the end of that pass, and every DDL event of `A`'s own run is
appended strictly after the dependency pass's log — so no DDL on `A` happens
before `B` has reached its declared version; and if the dependency pass
fails, `A`'s run is exactly the dependency pass — no DDL on `A` happens at
all. -/
theorem claim_C8 (env : List TableDef) (fuel : Nat) (A B : TableDef) (db : DB)
    (hBdep : B.name ∈ A.deps)
    (hBenv : lookupEnv env B.name = some B)
    (hBspec : B.special = false)
    (hb : storeBounded env db.store = true)
    (hacyc : ∀ e ∈ (upgradeDepList env fuel A.deps db).log, evName e ≠ A.name) :
    ((upgradeDepList env fuel A.deps db).err = none →
      alookup (upgradeDepList env fuel A.deps db).db.store B.name = some B.version ∧
      ∃ olog, (upgrade_schema env (fuel + 1) A db).log
          = (upgradeDepList env fuel A.deps db).log ++ olog ∧
        (∀ e ∈ olog, evName e = A.name) ∧
        (∀ e ∈ (upgradeDepList env fuel A.deps db).log, evName e ≠ A.name)) ∧
    ((upgradeDepList env fuel A.deps db).err ≠ none →
      upgrade_schema env (fuel + 1) A db = upgradeDepList env fuel A.deps db) := by
  constructor
  · intro he
    refine ⟨depList_post env fuel A.deps db hb he B.name hBdep B hBenv hBspec, ?_⟩
    rw [upgrade_schema_succ_ok he]
    obtain ⟨ex, hex, hall⟩ := ownUpgrade_log A (upgradeDepList env fuel A.deps db).db
      (upgradeDepList env fuel A.deps db).log
    exact ⟨ex, hex, hall, hacyc⟩
  · intro he
    exact upgrade_schema_succ_err (Option.isSome_iff_ne_none.mpr he)

/-- C8 (witness): `identities` has a foreign key to `accounts`; from a fresh
database the dependency pass creates `accounts` at its target version 2
before any DDL on `identities`. -/
theorem claim_C8_witness :
    alookup (upgradeDepList fxDepEnv 1 fxDepA.deps fxDepDb).db.store fxDepB.name
        = some fxDepB.version ∧
    ∃ olog, (upgrade_schema fxDepEnv 2 fxDepA fxDepDb).log
        = (upgradeDepList fxDepEnv 1 fxDepA.deps fxDepDb).log ++ olog ∧
      (∀ e ∈ olog, evName e = fxDepA.name) ∧
      (∀ e ∈ (upgradeDepList fxDepEnv 1 fxDepA.deps fxDepDb).log,
        evName e ≠ fxDepA.name) :=
  (claim_C8 fxDepEnv 1 fxDepA fxDepB fxDepDb (by decide) (by decide) (by decide)
    (by decide) (by decide)).1 (by decide)

/-! ## Lemmas about the SQLite table rebuild -/

theorem mem_zip_map {α β : Type} (f : α → β) (xs : List α) (pr : α × β)
    (h : pr ∈ xs.zip (xs.map f)) : pr.2 = f pr.1 ∧ pr.1 ∈ xs := by
  induction xs with
  | nil => cases h
  | cons x xs ih =>
    rcases List.mem_cons.mp h with hx | hx
    · subst hx
      exact ⟨rfl, List.mem_cons_self _ _⟩
    · obtain ⟨h1, h2⟩ := ih hx
      exact ⟨h1, List.mem_cons_of_mem _ h2⟩

theorem fullcolmap_mem_unmentioned {cols : List Col} {cm : List (String × Option Col)}
    {c : Col} (hc : c ∈ cols) (h : alookup cm c.name = none) :
    (c.name, c.name) ∈ fullcolmap cols cm := by
  refine List.mem_filterMap.mpr ⟨c, hc, ?_⟩
  rw [h]

theorem fullcolmap_mem_renamed {cols : List Col} {cm : List (String × Option Col)}
    {c c' : Col} (hc : c ∈ cols) (h : alookup cm c.name = some (some c')) :
    (c.name, c'.name) ∈ fullcolmap cols cm := by
  refine List.mem_filterMap.mpr ⟨c, hc, ?_⟩
  rw [h]

theorem fullcolmap_key_col {cols : List Col} {cm : List (String × Option Col)}
    {p : String × String} (h : p ∈ fullcolmap cols cm) :
    ∃ c ∈ cols, c.name = p.1 := by
  obtain ⟨c, hc, heq⟩ := List.mem_filterMap.mp h
  refine ⟨c, hc, ?_⟩
  cases hl : alookup cm c.name with
  | none =>
    rw [hl] at heq
    cases heq
    rfl
  | some oc =>
    cases oc with
    | none => rw [hl] at heq; cases heq
    | some c' =>
      rw [hl] at heq
      cases heq
      rfl

theorem alookup_copyRow {fcm : List (String × String)} {r : List (String × String)}
    {src tgt : String} (hnd : (fcm.map Prod.snd).Nodup) (h : (src, tgt) ∈ fcm) :
    alookup (copyRow fcm r) tgt = some ((alookup r src).getD "") := by
  induction fcm with
  | nil => cases h
  | cons p fcm ih =>
    rw [List.map_cons, List.nodup_cons] at hnd
    rcases List.mem_cons.mp h with hp | hp
    · subst hp
      show (if tgt = tgt then some ((alookup r src).getD "") else _) = _
      rw [if_pos rfl]
    · have htgt : p.2 ≠ tgt := by
        intro hc
        exact hnd.1 (hc ▸ List.mem_map.mpr ⟨(src, tgt), hp, rfl⟩)
      show (if p.2 = tgt then _ else alookup (copyRow fcm r) tgt) = _
      rw [if_neg htgt]
      exact ih hnd.2 hp

theorem applyColmap_mem {cols : List Col} {cm : List (String × Option Col)}
    {c : Col} (hc : c ∈ cols) (h : ∀ p ∈ cm, p.1 ≠ c.name) :
    c ∈ applyColmap cols cm := by
  unfold applyColmap
  induction cm generalizing cols with
  | nil => exact hc
  | cons p cm ih =>
    rw [List.foldl_cons]
    refine ih ?_ (fun q hq => h q (List.mem_cons_of_mem _ hq))
    unfold applyColEntry
    refine List.mem_append_left _ ?_
    rw [List.mem_filter]
    refine ⟨hc, ?_⟩
    exact decide_eq_true (fun hcn => h p (List.mem_cons_self _ _) hcn.symm)

theorem applyColEntry_keeps {acc : List Col} {p : String × Option Col} {n : String}
    (hacc : ∀ x ∈ acc, x.name ≠ n) (hp : ∀ c', p.2 = some c' → c'.name ≠ n) :
    ∀ x ∈ applyColEntry acc p, x.name ≠ n := by
  intro x hx
  unfold applyColEntry at hx
  rcases List.mem_append.mp hx with hx | hx
  · exact hacc x (List.mem_filter.mp hx).1
  · cases hoc : p.2 with
    | none => rw [hoc] at hx; cases hx
    | some c' =>
      rw [hoc] at hx
      rcases List.mem_cons.mp hx with rfl | hx
      · exact hp x hoc
      · cases hx

theorem foldl_applyColEntry_keeps {n : String} :
    ∀ (cm : List (String × Option Col)) (acc : List Col),
    (∀ x ∈ acc, x.name ≠ n) →
    (∀ p ∈ cm, ∀ c', p.2 = some c' → c'.name ≠ n) →
    ∀ x ∈ cm.foldl applyColEntry acc, x.name ≠ n := by
  intro cm
  induction cm with
  | nil => intro acc hacc _ x hx; exact hacc x hx
  | cons p cm ih =>
    intro acc hacc hcm x hx
    rw [List.foldl_cons] at hx
    refine ih (applyColEntry acc p)
      (applyColEntry_keeps hacc (hcm p (List.mem_cons_self _ _)))
      (fun q hq => hcm q (List.mem_cons_of_mem _ hq)) x hx

theorem applyColmap_dropped {cols : List Col} {cm : List (String × Option Col)}
    {n : String} (h : alookup cm n = some none)
    (hnew : ∀ p ∈ cm, ∀ c', p.2 = some c' → c'.name ≠ n) :
    ∀ x ∈ applyColmap cols cm, x.name ≠ n := by
  obtain ⟨l1, l2, heq, hl1⟩ := alookup_split h
  subst heq
  unfold applyColmap
  rw [List.foldl_append, List.foldl_cons]
  refine foldl_applyColEntry_keeps l2 _ ?_
    (fun q hq => hnew q (List.mem_append_right _ (List.mem_cons_of_mem _ hq)))
  intro x hx
  unfold applyColEntry at hx
  rcases List.mem_append.mp hx with hx | hx
  · have := (List.mem_filter.mp hx).2
    exact of_decide_eq_true this
  · cases hx

/-- C2: rebuilding a SQLite table through `rebuild_sqlite` (with pairwise
distinct post-rebuild column names and rows defined on all reflected
columns) preserves the row count exactly; for every row, every column not
mentioned in the map keeps its cell value under its own name and every
renamed column's cell value is readable under the new name; columns not
mentioned in the map are carried over into the rebuilt layout unchanged
(same name and type), and a column mapped to `None` is dropped: no column of
the rebuilt table bears its name (provided no new column reintroduces that
name). -/
theorem claim_C2 (cols : List Col) (cm : List (String × Option Col))
    (rows : List (List (String × String)))
    (hnodup : ((fullcolmap cols cm).map Prod.snd).Nodup)
    (hrows : ∀ r ∈ rows, ∀ c ∈ cols, (alookup r c.name).isSome = true) :
    (rebuild_sqlite cols cm rows).2.length = rows.length ∧
    (∀ pr ∈ rows.zip (rebuild_sqlite cols cm rows).2,
      (∀ c ∈ cols, alookup cm c.name = none →
        alookup pr.2 c.name = alookup pr.1 c.name) ∧
      (∀ c ∈ cols, ∀ c', alookup cm c.name = some (some c') →
        alookup pr.2 c'.name = alookup pr.1 c.name)) ∧
    (∀ c ∈ cols, alookup cm c.name = none → c ∈ (rebuild_sqlite cols cm rows).1) ∧
    (∀ c ∈ cols, alookup cm c.name = some none →
      (∀ p ∈ cm, ∀ c', p.2 = some c' → c'.name ≠ c.name) →
      ∀ c2 ∈ (rebuild_sqlite cols cm rows).1, c2.name ≠ c.name) := by
  refine ⟨List.length_map rows _, ?_, ?_, ?_⟩
  · intro pr hpr
    obtain ⟨hcopy, hmem⟩ := mem_zip_map (copyRow (fullcolmap cols cm)) rows pr hpr
    constructor
    · intro c hc hcm
      rw [hcopy]
      rw [alookup_copyRow hnodup (fullcolmap_mem_unmentioned hc hcm)]
      obtain ⟨v, hv⟩ := Option.isSome_iff_exists.mp (hrows pr.1 hmem c hc)
      rw [hv]
      rfl
    · intro c hc c' hcm
      rw [hcopy]
      rw [alookup_copyRow hnodup (fullcolmap_mem_renamed hc hcm)]
      obtain ⟨v, hv⟩ := Option.isSome_iff_exists.mp (hrows pr.1 hmem c hc)
      rw [hv]
      rfl
  · intro c hc hcm
    exact applyColmap_mem hc (alookup_eq_none.mp hcm)
  · intro c hc hcm hnew
    exact applyColmap_dropped hcm hnew

/-- C2 (witness): renaming column `x` to `y` on a two-row table. -/
theorem claim_C2_witness :
    (rebuild_sqlite fxCols fxCm fxRows).2.length = fxRows.length ∧
    (∀ pr ∈ fxRows.zip (rebuild_sqlite fxCols fxCm fxRows).2,
      (∀ c ∈ fxCols, alookup fxCm c.name = none →
        alookup pr.2 c.name = alookup pr.1 c.name) ∧
      (∀ c ∈ fxCols, ∀ c', alookup fxCm c.name = some (some c') →
        alookup pr.2 c'.name = alookup pr.1 c.name)) ∧
    (∀ c ∈ fxCols, alookup fxCm c.name = none →
      c ∈ (rebuild_sqlite fxCols fxCm fxRows).1) ∧
    (∀ c ∈ fxCols, alookup fxCm c.name = some none →
      (∀ p ∈ fxCm, ∀ c', p.2 = some c' → c'.name ≠ c.name) →
      ∀ c2 ∈ (rebuild_sqlite fxCols fxCm fxRows).1, c2.name ≠ c.name) :=
  claim_C2 fxCols fxCm fxRows (by decide) (by decide)

end Ibid
